import Mathlib

/-!
Verification development for the NEMU monitor expression subsystem
(`src/nemu/src/monitor/sdb/expr.c` and `src/nemu/src/monitor/sdb/sdb.c`).

The C sources are shallowly embedded: the lexer `make_token`, the
parenthesis check `check_parentheses`, the recursive evaluator `eval`
(compiled with `EXPR_UNIT_TEST_ENABLED = 1`, so the dereference and
register-name leaves return the documented placeholder constants 1 and 2),
the top-level `expr`, and the `x` command handler `cmd_x`.

Process aborts in the C code (`assert(0)`, `panic`, `TODO()`) are modelled
as distinguished result values: `none` for the evaluator's assertions, and
dedicated `LexResult` constructors for the lexer's panics and the
unimplemented `TODO()` branch.  C `int` arithmetic is modelled with `Int`
(`Int.div` / `Int.mod` are C-style truncated division); signed overflow is
undefined behaviour in C and every verified claim stays in range.
-/

/-- Token kinds, mirroring the `enum` at the top of `expr.c`
(`TK_NOTYPE = 256`, then `TK_EQ`, ..., `TK_DEREF`). -/
inductive TokType where
  | TK_NOTYPE
  | TK_EQ
  | TK_ADD
  | TK_SUB
  | TK_MULTIPLY
  | TK_DIVIDE
  | TK_OPENPARENTHESIS
  | TK_CLOSEPARENTHESIS
  | TK_NUMBER
  | TK_HEX_NUMBER
  | TK_REG_NAME
  | TK_DEREF
deriving DecidableEq, Repr

open TokType

/-- A token: `struct token { int type; char str[32]; }`.  The lexeme `str`
is only filled in for literal / register-name tokens; operator tokens keep
an empty lexeme (the static C array is zero / stale there and never read). -/
structure Token where
  type : TokType
  str : List Char
deriving DecidableEq, Repr

instance : Inhabited Token := ⟨⟨TK_NOTYPE, []⟩⟩

/-- Character class `[0-9]` used by the rules `[1-9][0-9]*` and the hex rule. -/
def isDigitB (c : Char) : Bool := decide (48 ≤ c.toNat ∧ c.toNat ≤ 57)

/-- Character class `[1-9]`. -/
def isNonzeroDigitB (c : Char) : Bool := decide (49 ≤ c.toNat ∧ c.toNat ≤ 57)

/-- Character class `[0-9a-fA-F]`. -/
def isHexDigitB (c : Char) : Bool :=
  decide ((48 ≤ c.toNat ∧ c.toNat ≤ 57) ∨ (97 ≤ c.toNat ∧ c.toNat ≤ 102) ∨
    (65 ≤ c.toNat ∧ c.toNat ≤ 70))

/-- Character class `[a-zA-Z0-9]` of the register-name rule. -/
def isAlnumB (c : Char) : Bool :=
  decide ((48 ≤ c.toNat ∧ c.toNat ≤ 57) ∨ (97 ≤ c.toNat ∧ c.toNat ≤ 122) ∨
    (65 ≤ c.toNat ∧ c.toNat ≤ 90))

/-- One step of the rule table of `expr.c` (`rules[]`, tried in declared
order by `regexec` with the `pmatch.rm_so == 0` prefix requirement):
returns the token type and matched length of the first rule whose POSIX
regex matches a (longest) prefix of the remaining input, or `none` when no
rule matches at this offset.  The rules are, in order: `[ ]`, `==`, `\+`,
`\-`, `\*`, `\/`, `\(`, `\)`, `[1-9][0-9]*`, `0[xX][0-9a-fA-F]+`,
`\$[a-zA-Z0-9]+`. -/
def matchRule : List Char → Option (TokType × Nat)
  | [] => none
  | c :: rest =>
    if c = ' ' then some (TK_NOTYPE, 1)
    else if c = '=' then
      match rest with
      | '=' :: _ => some (TK_EQ, 2)
      | _ => none
    else if c = '+' then some (TK_ADD, 1)
    else if c = '-' then some (TK_SUB, 1)
    else if c = '*' then some (TK_MULTIPLY, 1)
    else if c = '/' then some (TK_DIVIDE, 1)
    else if c = '(' then some (TK_OPENPARENTHESIS, 1)
    else if c = ')' then some (TK_CLOSEPARENTHESIS, 1)
    else if isNonzeroDigitB c then some (TK_NUMBER, 1 + (rest.takeWhile isDigitB).length)
    else if c = '0' then
      match rest with
      | x :: rest2 =>
        if x = 'x' ∨ x = 'X' then
          let h := (rest2.takeWhile isHexDigitB).length
          if h = 0 then none else some (TK_HEX_NUMBER, 2 + h)
        else none
      | [] => none
    else if c = '$' then
      let a := (rest.takeWhile isAlnumB).length
      if a = 0 then none else some (TK_REG_NAME, 1 + a)
    else none

/-- Result of `make_token`: `ok` models `return true` with the filled
token array, `noMatch` models the `return false` path (with the failing
`position`), `overflowTokens` and `overflowLexeme` model the
`panic` aborts of `check_nr_valid` / `check_substr_valid`, and `todo`
models the unhandled `default: TODO();` branch of the switch. -/
inductive LexResult where
  | ok (ts : List Token)
  | noMatch (pos : Nat)
  | overflowTokens
  | overflowLexeme
  | todo
deriving DecidableEq, Repr

/-- Condition under which a matched `+`, `-` or `*` is appended as
`TK_DEREF` (`expr.c` lines 137-141): no previous accepted token, or the
previous token is add / sub / multiply / divide / open-paren.  `acc` holds
the accepted tokens in reverse order, so its head is `tokens[nr_token-1]`. -/
def deref_prev_ok (acc : List Token) : Bool :=
  match acc with
  | [] => true
  | t :: _ =>
    decide (t.type = TK_ADD ∨ t.type = TK_SUB ∨ t.type = TK_MULTIPLY ∨
      t.type = TK_DIVIDE ∨ t.type = TK_OPENPARENTHESIS)

/-- The scanning loop of `make_token`.  `fuel` bounds the number of
iterations (each iteration consumes at least one character, so
`cs.length` fuel always suffices); `pos` is `position`, `acc` the tokens
accepted so far, in reverse order.  The capacity checks mirror
`check_nr_valid` (`nr_token >= 32` panics) and `check_substr_valid`
(`substr_len >= 32` panics), in the order the C code performs them. -/
def make_token_loop : Nat → List Char → Nat → List Token → LexResult
  | _, [], _, acc => .ok acc.reverse
  | 0, _ :: _, pos, _ => .noMatch pos
  | Nat.succ f, c :: cs, pos, acc =>
    match matchRule (c :: cs) with
    | none => .noMatch pos
    | some (ty, len) =>
      let pos' := pos + len
      let rest := (c :: cs).drop len
      if ty = TK_NUMBER ∨ ty = TK_HEX_NUMBER ∨ ty = TK_REG_NAME then
        if acc.length ≥ 32 then .overflowTokens
        else if len ≥ 32 then .overflowLexeme
        else make_token_loop f rest pos' (⟨ty, (c :: cs).take len⟩ :: acc)
      else if ty = TK_ADD ∨ ty = TK_SUB ∨ ty = TK_MULTIPLY then
        if deref_prev_ok acc then
          if acc.length ≥ 32 then .overflowTokens
          else make_token_loop f rest pos' (⟨TK_DEREF, []⟩ :: acc)
        else
          if acc.length ≥ 32 then .overflowTokens
          else make_token_loop f rest pos' (⟨ty, []⟩ :: acc)
      else if ty = TK_DIVIDE ∨ ty = TK_OPENPARENTHESIS ∨ ty = TK_CLOSEPARENTHESIS then
        if acc.length ≥ 32 then .overflowTokens
        else make_token_loop f rest pos' (⟨ty, []⟩ :: acc)
      else if ty = TK_NOTYPE then
        make_token_loop f rest pos' acc
      else .todo

/-- `make_token(char *e)`: run the scanning loop over the whole input. -/
def make_token (e : List Char) : LexResult :=
  make_token_loop (e.length + 1) e 0 []

/-- Indexing into the token array.  The C code only ever indexes inside
the bounds established by the caller; out-of-range indices return the
(never consulted) default token. -/
def getTok (ts : List Token) (i : Int) : Token :=
  if h : 0 ≤ i ∧ i < (ts.length : Int) then ts.get ⟨i.toNat, by omega⟩
  else default

/-- `atoi` on a lexeme: fold the leading decimal digits (the C library
routine also skips leading blanks and an optional sign). -/
def parseDecAcc (acc : Int) : List Char → Int
  | [] => acc
  | c :: cs => if isDigitB c then parseDecAcc (acc * 10 + ((c.toNat : Int) - 48)) cs else acc

/-- `atoi` / `atol`: skip spaces, optional sign, then decimal digits. -/
def atoi (s : List Char) : Int :=
  match s.dropWhile (fun c => c = ' ') with
  | '-' :: cs => -(parseDecAcc 0 cs)
  | '+' :: cs => parseDecAcc 0 cs
  | cs => parseDecAcc 0 cs

/-- Value of one hex digit. -/
def hexVal (c : Char) : Int :=
  if 48 ≤ c.toNat ∧ c.toNat ≤ 57 then (c.toNat : Int) - 48
  else if 97 ≤ c.toNat ∧ c.toNat ≤ 102 then (c.toNat : Int) - 87
  else if 65 ≤ c.toNat ∧ c.toNat ≤ 70 then (c.toNat : Int) - 55
  else 0

/-- Fold hex digits, stopping at the first non-hex character. -/
def parseHexAcc (acc : Int) : List Char → Int
  | [] => acc
  | c :: cs => if isHexDigitB c then parseHexAcc (acc * 16 + hexVal c) cs else acc

/-- Unsigned part of `strtol` base 16: consume an optional `0x`/`0X`
prefix when a hex digit follows it, then fold the hex digits. -/
def strtol16Body (s2 : List Char) : Int :=
  match s2 with
  | '0' :: x :: c :: r =>
    if (x = 'x' ∨ x = 'X') ∧ isHexDigitB c = true then parseHexAcc 0 (c :: r)
    else parseHexAcc 0 s2
  | _ => parseHexAcc 0 s2

/-- `strtol(s, NULL, 16)`: skip spaces and an optional sign, consume an
optional `0x`/`0X` prefix when a hex digit follows it, then fold the hex
digits (consuming as many as possible; no-conversion yields 0). -/
def strtol16 (s : List Char) : Int :=
  match s.dropWhile (fun c => c = ' ') with
  | '-' :: cs => -(strtol16Body cs)
  | '+' :: cs => strtol16Body cs
  | cs => strtol16Body cs

/-- The loop of `check_parentheses`: scan from `token_end` (`k`) down to
`token_start`, counting close-parens as `+1`, open-parens as `-1`; fail
as soon as the running count goes negative, and require it to end at
zero.  The `while (token_end >= token_start)` loop runs exactly
`token_end + 1 - token_start` times (clamped at zero), which is passed as
the structural counter `n`; `k` is the current `token_end`. -/
def check_paren_loop (ts : List Token) : Nat → Int → Int → Bool
  | 0, _, pn => pn = 0
  | Nat.succ n, k, pn =>
    let ty := (getTok ts k).type
    let pn' := if ty = TK_CLOSEPARENTHESIS then pn + 1
      else if ty = TK_OPENPARENTHESIS then pn - 1 else pn
    if pn' < 0 then false
    else check_paren_loop ts n (k - 1) pn'

/-- `check_parentheses(token_start, token_end)` from `expr.c`. -/
def check_parentheses (ts : List Token) (lo hi : Int) : Bool :=
  check_paren_loop ts (hi + 1 - lo).toNat hi 0

/-- Backward operator scan of `eval`: walk `k` from `token_end` down to
`token_start`, updating the parenthesis counter (`+1` on open-paren, `-1`
on close-paren, as the C switch does), and return the first index holding
`t1` or `t2` while the counter is zero.  The loop processes indices
`token_end` down to `token_start`, i.e. `n = token_end - token_start`
further iterations after the current one. -/
def scanOp (t1 t2 : TokType) (ts : List Token) : Nat → Int → Int → Option Int
  | 0, k, pn =>
    if ((getTok ts k).type = t1 ∨ (getTok ts k).type = t2) ∧ pn = 0 then some k
    else none
  | Nat.succ m, k, pn =>
    if ((getTok ts k).type = t1 ∨ (getTok ts k).type = t2) ∧ pn = 0 then some k
    else scanOp t1 t2 ts m (k - 1)
      (if (getTok ts k).type = TK_OPENPARENTHESIS then pn + 1
       else if (getTok ts k).type = TK_CLOSEPARENTHESIS then pn - 1 else pn)

/-- `eval(token_start, token_end)` from `expr.c`, compiled with
`EXPR_UNIT_TEST_ENABLED = 1` (so a dereference leaf returns the constant 1
and a register-name leaf the constant 2, per the comment at the top of the
file).  Every `assert(0)` is modelled as the result `none`.  The second
component records the ranges of all `eval` invocations (this call first,
then the recursive calls in source order).  `fuel` bounds the recursion
depth; every recursive call shrinks the range, so `width + 1` always
suffices. -/
def eval : Nat → List Token → Int → Int → Option Int × List (Int × Int)
  | 0, _, lo, hi => (none, [(lo, hi)])
  | Nat.succ f, ts, lo, hi =>
    if lo > hi then (none, [(lo, hi)])
    else if hi - lo = 0 ∨ hi - lo = 1 then
      (if hi - lo = 0 ∧ (getTok ts lo).type = TK_NUMBER then
        some (atoi (getTok ts lo).str)
      else if hi - lo = 0 ∧ (getTok ts lo).type = TK_HEX_NUMBER then
        some (strtol16 (getTok ts lo).str)
      else if hi - lo = 1 ∧ (getTok ts lo).type = TK_DEREF ∧
          ((getTok ts hi).type = TK_NUMBER ∨ (getTok ts hi).type = TK_HEX_NUMBER) then
        some 1
      else if hi - lo = 0 ∧ (getTok ts lo).type = TK_REG_NAME then
        some 2
      else none, [(lo, hi)])
    else if check_parentheses ts lo hi = false then (none, [(lo, hi)])
    else if (getTok ts lo).type = TK_OPENPARENTHESIS ∧
        (getTok ts hi).type = TK_CLOSEPARENTHESIS ∧
        check_parentheses ts (lo + 1) (hi - 1) = true then
      let r := eval f ts (lo + 1) (hi - 1)
      (r.1, (lo, hi) :: r.2)
    else
      match scanOp TK_ADD TK_SUB ts (hi - lo).toNat hi 0 with
      | some k =>
        let r1 := eval f ts lo (k - 1)
        let r2 := eval f ts (k + 1) hi
        (match r1.1, r2.1 with
          | some a, some b =>
            if (getTok ts k).type = TK_ADD then some (a + b) else some (a - b)
          | _, _ => none, (lo, hi) :: (r1.2 ++ r2.2))
      | none =>
        match scanOp TK_MULTIPLY TK_DIVIDE ts (hi - lo).toNat hi 0 with
        | some k =>
          let r1 := eval f ts lo (k - 1)
          let r2 := eval f ts (k + 1) hi
          (match r1.1, r2.1 with
            | some a, some b =>
              if (getTok ts k).type = TK_MULTIPLY then some (a * b) else some (Int.tdiv a b)
            | _, _ => none, (lo, hi) :: (r1.2 ++ r2.2))
        | none => (none, [(lo, hi)])

/-- Value component of `eval`. -/
def evalV (f : Nat) (ts : List Token) (lo hi : Int) : Option Int := (eval f ts lo hi).1

/-- `word_t expr(char *e, bool *success)`: tokenize, then evaluate the
range `0 .. nr_token - 1`.  A lexer failure (`*success = false`), a lexer
abort, or an evaluator assertion all yield `none`. -/
def expr (e : List Char) : Option Int :=
  match make_token e with
  | .ok ts => (eval (ts.length + 1) ts 0 ((ts.length : Int) - 1)).1
  | _ => none

/-- Ranges passed to `eval` during the evaluation performed by `expr`
(the initial call `eval(0, nr_token - 1)` first). -/
def expr_trace (e : List Char) : List (Int × Int) :=
  match make_token e with
  | .ok ts => (eval (ts.length + 1) ts 0 ((ts.length : Int) - 1)).2
  | _ => []

/-- A well-formed evaluator range over `n` tokens: in-bounds and
non-empty (`lo ≤ hi`), as stated by the spec's invariant. -/
def range_ok (n : Nat) (r : Int × Int) : Prop :=
  0 ≤ r.1 ∧ r.1 ≤ r.2 ∧ r.2 < (n : Int)

instance (n : Nat) (r : Int × Int) : Decidable (range_ok n r) := by
  unfold range_ok; infer_instance

/-! Embedding of the `x` command handler `cmd_x` from `sdb.c`.  The
memory collaborators `in_pmem` and `vaddr_read(addr, 1)` are passed in as
functions; the handler's observable behaviour (the printed rows of bytes,
the `[PMEM OUT OF LIMIT]` marker, or the `unsupported command params`
message) is returned as a value. -/

/-- Observable outcome of `cmd_x`: either the parameter-error message, or
the printed output: one entry per row (the row's base address printed in
the header, then the bytes printed in that row), plus whether the
`[PMEM OUT OF LIMIT]` marker was printed. -/
inductive XOutput where
  | unsupported
  | output (rows : List (Int × List Nat)) (marker : Bool)
deriving DecidableEq, Repr

/-- The `strtok(NULL, " ")` argument split: the argument string broken at
spaces, empty pieces discarded. -/
def splitArgs (s : List Char) : List (List Char) :=
  (s.splitOn ' ').filter (fun t => t ≠ [])

/-- Unsigned part of `strtol16_full`: the digits actually consumed must
reach the end of the string (that is the `endptr` check). -/
def strtol16_full_body (s2 : List Char) : Option Int :=
  let s3 := match s2 with
    | '0' :: x :: c :: r =>
      if (x = 'x' ∨ x = 'X') ∧ isHexDigitB c = true then c :: r else s2
    | _ => s2
  let digits := s3.takeWhile isHexDigitB
  if digits ≠ [] ∧ s3.drop digits.length = [] then some (parseHexAcc 0 digits)
  else none

/-- `strtol(arg2, &endptr, 16)` together with the `*endptr != '\0'`
check: succeeds only when the whole argument is consumed by the base-16
parse (optional sign, optional `0x`/`0X` prefix followed by a hex digit,
then hex digits). -/
def strtol16_full (s : List Char) : Option Int :=
  match s.dropWhile (fun c => c = ' ') with
  | '-' :: cs => (strtol16_full_body cs).map (fun v => -v)
  | '+' :: cs => strtol16_full_body cs
  | cs => strtol16_full_body cs

/-- Inner byte loop of `cmd_x` (`for (j = 0; j < 8; j++)`): read bytes at
`addr`, `addr+1`, ... as long as `in_pmem` holds, stopping with the
out-of-limit flag at the first unmapped address. -/
def cmd_x_row (pmem : Int → Bool) (rd : Int → Nat) : Int → Nat → List Nat × Bool
  | _, 0 => ([], false)
  | addr, Nat.succ j =>
    if pmem addr then
      let r := cmd_x_row pmem rd (addr + 1) j
      (rd addr :: r.1, r.2)
    else ([], true)

/-- Outer row loop of `cmd_x` (`for (i = 0; i < group_num; i++)`): print
a header and up to 8 bytes per row; after a row that hit an unmapped
address, print the marker and stop. -/
def cmd_x_rows (pmem : Int → Bool) (rd : Int → Nat) : Int → Nat → List (Int × List Nat) × Bool
  | _, 0 => ([], false)
  | addr, Nat.succ g =>
    let row := cmd_x_row pmem rd addr 8
    if row.2 then ([(addr, row.1)], true)
    else
      let rest := cmd_x_rows pmem rd (addr + 8) g
      ((addr, row.1) :: rest.1, rest.2)

/-- `cmd_x(char *args)` from `sdb.c`: parse `N` with `atol` and the
address argument with `strtol(..., 16)` (requiring full consumption),
compute `group_num = N/8`, rounded up when `N % 8 != 0`, and print
`group_num` rows of 8 bytes, stopping with the `[PMEM OUT OF LIMIT]`
marker at the first address outside physical memory.  A missing argument
string, fewer than two arguments, or a trailing non-hex character in the
address produce `unsupported command params`. -/
def cmd_x (pmem : Int → Bool) (rd : Int → Nat) (args : Option (List Char)) : XOutput :=
  match args with
  | none => .unsupported
  | some a =>
    match splitArgs a with
    | a1 :: a2 :: _ =>
      let pr_num := atoi a1
      match strtol16_full a2 with
      | none => .unsupported
      | some pr_addr =>
        let group_num := Int.tdiv pr_num 8 + (if Int.tmod pr_num 8 = 0 then 0 else 1)
        let r := cmd_x_rows pmem rd pr_addr group_num.toNat
        .output r.1 r.2
    | _ => .unsupported

/-- The memory collaborator of the spec's `x`-command scenario: physical
memory backs exactly the address window `[0x100000, 0x100010)`. -/
def pmem_window (a : Int) : Bool := decide (1048576 ≤ a ∧ a < 1048592)

/-- A concrete byte-read collaborator for the scenario (contents are
irrelevant to the row structure; this one returns the low bits of the
address). -/
def read_window (a : Int) : Nat := a.toNat % 256

/-! Spec-side renderings of integers, used to state the literal
round-trip property (C6): the decimal and `0x`-prefixed lower-case
hexadecimal textual forms of a natural number. -/

/-- Decimal digit character (`0`-`9`). -/
def digitChar (d : Nat) : Char :=
  match d with
  | 0 => '0' | 1 => '1' | 2 => '2' | 3 => '3' | 4 => '4'
  | 5 => '5' | 6 => '6' | 7 => '7' | 8 => '8' | 9 => '9'
  | _ => '0'

/-- Hexadecimal digit character (`0`-`9`, `a`-`f`). -/
def hexDigitChar (d : Nat) : Char :=
  match d with
  | 0 => '0' | 1 => '1' | 2 => '2' | 3 => '3' | 4 => '4'
  | 5 => '5' | 6 => '6' | 7 => '7' | 8 => '8' | 9 => '9'
  | 10 => 'a' | 11 => 'b' | 12 => 'c' | 13 => 'd' | 14 => 'e' | 15 => 'f'
  | _ => '0'

/-- Decimal textual form of a natural number (no leading zeros; `0`
renders as `"0"`). -/
def decChars (n : Nat) : List Char :=
  if _h : n < 10 then [digitChar n]
  else decChars (n / 10) ++ [digitChar (n % 10)]
decreasing_by exact Nat.div_lt_self (by omega) (by omega)

/-- Hexadecimal digit string of a natural number (no leading zeros; `0`
renders as `"0"`); the full textual form is `'0' :: 'x' :: hexChars n`. -/
def hexChars (n : Nat) : List Char :=
  if _h : n < 16 then [hexDigitChar n]
  else hexChars (n / 16) ++ [hexDigitChar (n % 16)]
decreasing_by exact Nat.div_lt_self (by omega) (by omega)

/-! Specification-side machinery for the precedence claim (C1): the
standard grammar of arithmetic expressions over `+ - * /` and
parentheses, as a relation on token ranges, together with parenthesis
weight sums used to analyse `check_parentheses` and the backward scans. -/

/-- Parenthesis weight of a token as the right-to-left loops count it:
close-paren `+1`, open-paren `-1`, everything else `0`. -/
def balW (t : TokType) : Int :=
  if t = TK_CLOSEPARENTHESIS then 1 else if t = TK_OPENPARENTHESIS then -1 else 0

/-- Sum of `balW` over the index range `[j, k]` (zero when `k < j`). -/
def balSum (ts : List Token) (j k : Int) : Int :=
  if k < j then 0 else balSum ts j (k - 1) + balW (getTok ts k).type
termination_by (k + 1 - j).toNat
decreasing_by omega

/-- Grammar level: expression (additive), term (multiplicative), factor. -/
inductive Lv where
  | e
  | t
  | f
deriving DecidableEq

/-- The standard precedence grammar on token ranges, per the spec:
`E ::= E + T | E - T | T`, `T ::= T * F | T / F | F`,
`F ::= decimal-literal | hex-literal | ( E )`.  `P ts l lo hi v` states
that the tokens at indices `[lo, hi]` derive from level `l` with value
`v` under standard left-associative evaluation (literals read with the
same `atoi` / `strtol` semantics the evaluator uses; division requires a
nonzero divisor, since C division by zero is undefined). -/
inductive P (ts : List Token) : Lv → Int → Int → Int → Prop where
  | num (i : Int) (h : (getTok ts i).type = TK_NUMBER) :
      P ts Lv.f i i (atoi (getTok ts i).str)
  | hex (i : Int) (h : (getTok ts i).type = TK_HEX_NUMBER) :
      P ts Lv.f i i (strtol16 (getTok ts i).str)
  | paren (lo hi v : Int) (ho : (getTok ts lo).type = TK_OPENPARENTHESIS)
      (hc : (getTok ts hi).type = TK_CLOSEPARENTHESIS)
      (he : P ts Lv.e (lo + 1) (hi - 1) v) : P ts Lv.f lo hi v
  | tf (lo hi v : Int) (h : P ts Lv.f lo hi v) : P ts Lv.t lo hi v
  | mul (lo k hi a b : Int) (h1 : P ts Lv.t lo (k - 1) a)
      (hop : (getTok ts k).type = TK_MULTIPLY)
      (h2 : P ts Lv.f (k + 1) hi b) : P ts Lv.t lo hi (a * b)
  | div (lo k hi a b : Int) (h1 : P ts Lv.t lo (k - 1) a)
      (hop : (getTok ts k).type = TK_DIVIDE)
      (h2 : P ts Lv.f (k + 1) hi b) (hb : b ≠ 0) : P ts Lv.t lo hi (Int.tdiv a b)
  | et (lo hi v : Int) (h : P ts Lv.t lo hi v) : P ts Lv.e lo hi v
  | add (lo k hi a b : Int) (h1 : P ts Lv.e lo (k - 1) a)
      (hop : (getTok ts k).type = TK_ADD)
      (h2 : P ts Lv.t (k + 1) hi b) : P ts Lv.e lo hi (a + b)
  | sub (lo k hi a b : Int) (h1 : P ts Lv.e lo (k - 1) a)
      (hop : (getTok ts k).type = TK_SUB)
      (h2 : P ts Lv.t (k + 1) hi b) : P ts Lv.e lo hi (a - b)

theorem balSum_empty (ts : List Token) (j k : Int) (h : k < j) : balSum ts j k = 0 := by
  rw [balSum, if_pos h]

theorem balSum_peel (ts : List Token) (j k : Int) (h : j ≤ k) :
    balSum ts j k = balSum ts j (k - 1) + balW (getTok ts k).type := by
  rw [balSum, if_neg (by omega)]

theorem balSum_single (ts : List Token) (i : Int) :
    balSum ts i i = balW (getTok ts i).type := by
  rw [balSum_peel ts i i le_rfl, balSum_empty ts i (i - 1) (by omega), zero_add]

theorem balSum_split (ts : List Token) :
    ∀ (d : Nat) (j m k : Int), j ≤ m + 1 → m ≤ k → k - m = (d : Int) →
      balSum ts j k = balSum ts j m + balSum ts (m + 1) k := by
  intro d
  induction d with
  | zero =>
    intro j m k _ _ hd
    have : k = m := by omega
    subst this
    rw [balSum_empty ts (k + 1) k (by omega), add_zero]
  | succ d ih =>
    intro j m k h1 h2 hd
    have hmk : m + 1 ≤ k := by omega
    rw [balSum_peel ts j k (by omega), balSum_peel ts (m + 1) k hmk,
      ih j m (k - 1) h1 (by omega) (by omega)]
    ring

/-- Characterization of the `check_parentheses` loop: with the exact
iteration count for the range `[lo, k]` and accumulated count `pn`, it
succeeds iff every suffix count stays nonnegative and the total is zero. -/
theorem check_paren_loop_spec (ts : List Token) (lo : Int) :
    ∀ (n : Nat) (k pn : Int), k + 1 - lo = (n : Int) →
      (check_paren_loop ts n k pn = true ↔
        ((∀ j, lo ≤ j → j ≤ k → 0 ≤ pn + balSum ts j k) ∧ pn + balSum ts lo k = 0)) := by
  intro n
  induction n with
  | zero =>
    intro k pn hn
    simp only [check_paren_loop, decide_eq_true_eq]
    constructor
    · intro h
      refine ⟨fun j hj1 hj2 => absurd (by omega : j < j) (lt_irrefl j), ?_⟩
      rw [balSum_empty ts lo k (by omega)]
      omega
    · intro ⟨_, h⟩
      rw [balSum_empty ts lo k (by omega)] at h
      omega
  | succ n ih =>
    intro k pn hn
    have hk : lo ≤ k := by omega
    have hpn' : (if (getTok ts k).type = TK_CLOSEPARENTHESIS then pn + 1
        else if (getTok ts k).type = TK_OPENPARENTHESIS then pn - 1 else pn) =
        pn + balW (getTok ts k).type := by
      unfold balW
      split_ifs <;> ring
    rw [check_paren_loop, hpn']
    by_cases hneg : pn + balW (getTok ts k).type < 0
    · rw [if_pos hneg]
      simp only [Bool.false_eq_true, false_iff, not_and, not_forall]
      intro hall
      have := hall k hk le_rfl
      rw [balSum_single ts k] at this
      omega
    · rw [if_neg hneg, ih (k - 1) (pn + balW (getTok ts k).type) (by omega)]
      constructor
      · intro ⟨hall, htot⟩
        constructor
        · intro j hj1 hj2
          rcases eq_or_lt_of_le hj2 with rfl | hjlt
          · rw [balSum_single ts j]
            omega
          · have := hall j hj1 (by omega)
            rw [balSum_peel ts j k (by omega)]
            omega
        · rw [balSum_peel ts lo k hk]
          omega
      · intro ⟨hall, htot⟩
        constructor
        · intro j hj1 hj2
          have := hall j hj1 (by omega)
          rw [balSum_peel ts j k (by omega)] at this
          omega
        · rw [balSum_peel ts lo k hk] at htot
          omega

/-- Specification of `check_parentheses` over `[lo, hi]`: success iff
every suffix of the range has nonnegative close-minus-open weight and
the whole range has weight zero. -/
theorem check_parentheses_spec (ts : List Token) (lo hi : Int) :
    check_parentheses ts lo hi = true ↔
      ((∀ j, lo ≤ j → j ≤ hi → 0 ≤ balSum ts j hi) ∧ balSum ts lo hi = 0) := by
  by_cases h : lo ≤ hi + 1
  · have := check_paren_loop_spec ts lo (hi + 1 - lo).toNat hi 0 (by omega)
    simpa using this
  · unfold check_parentheses
    rw [show (hi + 1 - lo).toNat = 0 by omega]
    simp only [check_paren_loop, decide_eq_true_eq]
    constructor
    · intro _
      refine ⟨fun j hj1 hj2 => absurd (le_trans hj1 hj2) (by omega), ?_⟩
      rw [balSum_empty ts lo hi (by omega)]
    · intro _
      trivial

theorem balSum_split' (ts : List Token) (j m k : Int) (h1 : j ≤ m + 1) (h2 : m ≤ k) :
    balSum ts j k = balSum ts j m + balSum ts (m + 1) k :=
  balSum_split ts (k - m).toNat j m k h1 h2 (by omega)

theorem balSum_peel_left (ts : List Token) (j k : Int) (h : j ≤ k) :
    balSum ts j k = balW (getTok ts j).type + balSum ts (j + 1) k := by
  rw [balSum_split' ts j j k (by omega) h, balSum_single]

/-- Every parse-relation range is non-empty. -/
theorem P_le {ts : List Token} {l : Lv} {lo hi v : Int} (h : P ts l lo hi v) :
    lo ≤ hi := by
  induction h <;> omega

/-- A width-1 parse range holds a decimal or hex literal token. -/
theorem P_single_type {ts : List Token} {l : Lv} {lo hi v : Int}
    (h : P ts l lo hi v) : lo = hi →
    (getTok ts lo).type = TK_NUMBER ∨ (getTok ts lo).type = TK_HEX_NUMBER := by
  induction h with
  | num i hty => exact fun _ => Or.inl hty
  | hex i hty => exact fun _ => Or.inr hty
  | paren lo hi v ho hc he ihe =>
    intro heq
    have := P_le he
    omega
  | tf _ _ _ _ ih => exact ih
  | mul lo k hi a b h1 hop h2 ih1 ih2 =>
    intro heq
    have := P_le h1
    have := P_le h2
    omega
  | div lo k hi a b h1 hop h2 hb ih1 ih2 =>
    intro heq
    have := P_le h1
    have := P_le h2
    omega
  | et _ _ _ _ ih => exact ih
  | add lo k hi a b h1 hop h2 ih1 ih2 =>
    intro heq
    have := P_le h1
    have := P_le h2
    omega
  | sub lo k hi a b h1 hop h2 ih1 ih2 =>
    intro heq
    have := P_le h1
    have := P_le h2
    omega

/-- Every parse-relation range has parenthesis weight zero. -/
theorem P_balZero {ts : List Token} {l : Lv} {lo hi v : Int}
    (h : P ts l lo hi v) : balSum ts lo hi = 0 := by
  induction h with
  | num i hty => rw [balSum_single, hty]; decide
  | hex i hty => rw [balSum_single, hty]; decide
  | paren lo hi v ho hc he ihe =>
    have hle := P_le he
    rw [balSum_split' ts lo lo hi (by omega) (by omega), balSum_single, ho,
      balSum_peel ts (lo + 1) hi (by omega), hc, ihe]
    decide
  | tf _ _ _ _ ih => exact ih
  | mul lo k hi a b h1 hop h2 ih1 ih2 =>
    have hl1 := P_le h1
    have hl2 := P_le h2
    rw [balSum_split' ts lo (k - 1) hi (by omega) (by omega)]
    rw [show k - 1 + 1 = k by ring, balSum_split' ts k k hi (by omega) (by omega),
      balSum_single, hop, ih1, ih2]
    decide
  | div lo k hi a b h1 hop h2 hb ih1 ih2 =>
    have hl1 := P_le h1
    have hl2 := P_le h2
    rw [balSum_split' ts lo (k - 1) hi (by omega) (by omega)]
    rw [show k - 1 + 1 = k by ring, balSum_split' ts k k hi (by omega) (by omega),
      balSum_single, hop, ih1, ih2]
    decide
  | et _ _ _ _ ih => exact ih
  | add lo k hi a b h1 hop h2 ih1 ih2 =>
    have hl1 := P_le h1
    have hl2 := P_le h2
    rw [balSum_split' ts lo (k - 1) hi (by omega) (by omega)]
    rw [show k - 1 + 1 = k by ring, balSum_split' ts k k hi (by omega) (by omega),
      balSum_single, hop, ih1, ih2]
    decide
  | sub lo k hi a b h1 hop h2 ih1 ih2 =>
    have hl1 := P_le h1
    have hl2 := P_le h2
    rw [balSum_split' ts lo (k - 1) hi (by omega) (by omega)]
    rw [show k - 1 + 1 = k by ring, balSum_split' ts k k hi (by omega) (by omega),
      balSum_single, hop, ih1, ih2]
    decide

/-- Every suffix of a parse-relation range has nonnegative weight. -/
theorem P_sufNonneg {ts : List Token} {l : Lv} {lo hi v : Int}
    (h : P ts l lo hi v) : ∀ j, lo ≤ j → j ≤ hi → 0 ≤ balSum ts j hi := by
  induction h with
  | num i hty =>
    intro j h1 h2
    have hji : j = i := by omega
    subst hji
    rw [balSum_single, hty]
    decide
  | hex i hty =>
    intro j h1 h2
    have hji : j = i := by omega
    subst hji
    rw [balSum_single, hty]
    decide
  | paren lo hi v ho hc he ihe =>
    intro j h1 h2
    have hle := P_le he
    have hbw : balW TK_CLOSEPARENTHESIS = 1 := by decide
    have hbo : balW TK_OPENPARENTHESIS = -1 := by decide
    rcases eq_or_lt_of_le h2 with rfl | hlt
    · rw [balSum_single, hc]
      omega
    · rw [balSum_peel ts j hi (by omega), hc]
      rcases eq_or_lt_of_le h1 with rfl | hlt2
      · rw [balSum_split' ts lo lo (hi - 1) (by omega) (by omega), balSum_single, ho,
          P_balZero he]
        omega
      · have := ihe j (by omega) (by omega)
        omega
  | tf _ _ _ _ ih => exact ih
  | mul lo k hi a b h1 hop h2 ih1 ih2 =>
    intro j hj1 hj2
    have hl1 := P_le h1
    have hl2 := P_le h2
    have hbw : balW TK_MULTIPLY = 0 := by decide
    rcases lt_trichotomy j k with hj | rfl | hj
    · rw [balSum_split' ts j (k - 1) hi (by omega) (by omega),
        show k - 1 + 1 = k by ring, balSum_split' ts k k hi (by omega) (by omega),
        balSum_single, hop, P_balZero h2]
      have := ih1 j hj1 (by omega)
      omega
    · rw [balSum_split' ts j j hi (by omega) (by omega), balSum_single, hop,
        P_balZero h2]
      omega
    · exact ih2 j (by omega) hj2
  | div lo k hi a b h1 hop h2 hb ih1 ih2 =>
    intro j hj1 hj2
    have hl1 := P_le h1
    have hl2 := P_le h2
    have hbw : balW TK_DIVIDE = 0 := by decide
    rcases lt_trichotomy j k with hj | rfl | hj
    · rw [balSum_split' ts j (k - 1) hi (by omega) (by omega),
        show k - 1 + 1 = k by ring, balSum_split' ts k k hi (by omega) (by omega),
        balSum_single, hop, P_balZero h2]
      have := ih1 j hj1 (by omega)
      omega
    · rw [balSum_split' ts j j hi (by omega) (by omega), balSum_single, hop,
        P_balZero h2]
      omega
    · exact ih2 j (by omega) hj2
  | et _ _ _ _ ih => exact ih
  | add lo k hi a b h1 hop h2 ih1 ih2 =>
    intro j hj1 hj2
    have hl1 := P_le h1
    have hl2 := P_le h2
    have hbw : balW TK_ADD = 0 := by decide
    rcases lt_trichotomy j k with hj | rfl | hj
    · rw [balSum_split' ts j (k - 1) hi (by omega) (by omega),
        show k - 1 + 1 = k by ring, balSum_split' ts k k hi (by omega) (by omega),
        balSum_single, hop, P_balZero h2]
      have := ih1 j hj1 (by omega)
      omega
    · rw [balSum_split' ts j j hi (by omega) (by omega), balSum_single, hop,
        P_balZero h2]
      omega
    · exact ih2 j (by omega) hj2
  | sub lo k hi a b h1 hop h2 ih1 ih2 =>
    intro j hj1 hj2
    have hl1 := P_le h1
    have hl2 := P_le h2
    have hbw : balW TK_SUB = 0 := by decide
    rcases lt_trichotomy j k with hj | rfl | hj
    · rw [balSum_split' ts j (k - 1) hi (by omega) (by omega),
        show k - 1 + 1 = k by ring, balSum_split' ts k k hi (by omega) (by omega),
        balSum_single, hop, P_balZero h2]
      have := ih1 j hj1 (by omega)
      omega
    · rw [balSum_split' ts j j hi (by omega) (by omega), balSum_single, hop,
        P_balZero h2]
      omega
    · exact ih2 j (by omega) hj2

/-- In a factor, every operator token sits strictly inside a
parenthesized group: the suffix weight after it is strictly positive. -/
theorem P_f_op_inside {ts : List Token} {l : Lv} {lo hi v : Int}
    (h : P ts l lo hi v) : l = Lv.f →
    ∀ j, lo ≤ j → j ≤ hi →
      ((getTok ts j).type = TK_ADD ∨ (getTok ts j).type = TK_SUB ∨
       (getTok ts j).type = TK_MULTIPLY ∨ (getTok ts j).type = TK_DIVIDE) →
      0 < balSum ts (j + 1) hi := by
  induction h with
  | num i hty =>
    intro _ j h1 h2 hop
    have hji : j = i := by omega
    subst hji
    rw [hty] at hop
    rcases hop with h | h | h | h <;> exact absurd h (by decide)
  | hex i hty =>
    intro _ j h1 h2 hop
    have hji : j = i := by omega
    subst hji
    rw [hty] at hop
    rcases hop with h | h | h | h <;> exact absurd h (by decide)
  | paren lo hi v ho hc he ihe =>
    intro _ j h1 h2 hop
    have hle := P_le he
    rcases eq_or_lt_of_le h1 with rfl | hlt
    · rw [ho] at hop
      rcases hop with h | h | h | h <;> exact absurd h (by decide)
    rcases eq_or_lt_of_le h2 with rfl | hlt2
    · rw [hc] at hop
      rcases hop with h | h | h | h <;> exact absurd h (by decide)
    have hbw : balW TK_CLOSEPARENTHESIS = 1 := by decide
    rw [balSum_peel ts (j + 1) hi (by omega), hc]
    by_cases hj : j + 1 ≤ hi - 1
    · have := P_sufNonneg he (j + 1) (by omega) hj
      omega
    · rw [balSum_empty ts (j + 1) (hi - 1) (by omega)]
      omega
  | tf _ _ _ _ ih => intro hlev; exact absurd hlev (by decide)
  | mul _ _ _ _ _ _ _ _ ih1 ih2 => intro hlev; exact absurd hlev (by decide)
  | div _ _ _ _ _ _ _ _ _ ih1 ih2 => intro hlev; exact absurd hlev (by decide)
  | et _ _ _ _ ih => intro hlev; exact absurd hlev (by decide)
  | add _ _ _ _ _ _ _ _ ih1 ih2 => intro hlev; exact absurd hlev (by decide)
  | sub _ _ _ _ _ _ _ _ ih1 ih2 => intro hlev; exact absurd hlev (by decide)

/-- In a term (or factor), every additive operator token sits strictly
inside a parenthesized group. -/
theorem P_t_addsub_inside {ts : List Token} {l : Lv} {lo hi v : Int}
    (h : P ts l lo hi v) : l = Lv.t ∨ l = Lv.f →
    ∀ j, lo ≤ j → j ≤ hi →
      ((getTok ts j).type = TK_ADD ∨ (getTok ts j).type = TK_SUB) →
      0 < balSum ts (j + 1) hi := by
  induction h with
  | num i hty =>
    intro _ j h1 h2 hop
    refine P_f_op_inside (P.num i hty) rfl j h1 h2 ?_
    rcases hop with h | h
    · exact Or.inl h
    · exact Or.inr (Or.inl h)
  | hex i hty =>
    intro _ j h1 h2 hop
    refine P_f_op_inside (P.hex i hty) rfl j h1 h2 ?_
    rcases hop with h | h
    · exact Or.inl h
    · exact Or.inr (Or.inl h)
  | paren lo hi v ho hc he ihe =>
    intro _ j h1 h2 hop
    refine P_f_op_inside (P.paren lo hi v ho hc he) rfl j h1 h2 ?_
    rcases hop with h | h
    · exact Or.inl h
    · exact Or.inr (Or.inl h)
  | tf _ _ _ _ ih => intro _; exact ih (Or.inr rfl)
  | mul lo k hi a b h1 hop2 h2 ih1 ih2 =>
    intro _ j hj1 hj2 hop
    have hl1 := P_le h1
    have hl2 := P_le h2
    have hbw : balW TK_MULTIPLY = 0 := by decide
    rcases lt_trichotomy j k with hj | rfl | hj
    · have hpos := ih1 (Or.inl rfl) j hj1 (by omega) hop
      rw [balSum_split' ts (j + 1) (k - 1) hi (by omega) (by omega),
        show k - 1 + 1 = k by ring, balSum_split' ts k k hi (by omega) (by omega),
        balSum_single, hop2, P_balZero h2]
      omega
    · rw [hop2] at hop
      rcases hop with h | h <;> exact absurd h (by decide)
    · exact ih2 (Or.inr rfl) j (by omega) hj2 hop
  | div lo k hi a b h1 hop2 h2 hb ih1 ih2 =>
    intro _ j hj1 hj2 hop
    have hl1 := P_le h1
    have hl2 := P_le h2
    have hbw : balW TK_DIVIDE = 0 := by decide
    rcases lt_trichotomy j k with hj | rfl | hj
    · have hpos := ih1 (Or.inl rfl) j hj1 (by omega) hop
      rw [balSum_split' ts (j + 1) (k - 1) hi (by omega) (by omega),
        show k - 1 + 1 = k by ring, balSum_split' ts k k hi (by omega) (by omega),
        balSum_single, hop2, P_balZero h2]
      omega
    · rw [hop2] at hop
      rcases hop with h | h <;> exact absurd h (by decide)
    · exact ih2 (Or.inr rfl) j (by omega) hj2 hop
  | et _ _ _ _ ih => intro hlev; rcases hlev with h | h <;> exact absurd h (by decide)
  | add _ _ _ _ _ _ _ _ ih1 ih2 =>
    intro hlev; rcases hlev with h | h <;> exact absurd h (by decide)
  | sub _ _ _ _ _ _ _ _ ih1 ih2 =>
    intro hlev; rcases hlev with h | h <;> exact absurd h (by decide)

/-- The scan's running counter always equals the negated suffix weight:
stepping from index `k` to `k - 1` updates it accordingly. -/
theorem scan_pn_step (ts : List Token) (hi k : Int) (hk : k ≤ hi) :
    (if (getTok ts k).type = TK_OPENPARENTHESIS then -balSum ts (k + 1) hi + 1
     else if (getTok ts k).type = TK_CLOSEPARENTHESIS then -balSum ts (k + 1) hi - 1
     else -balSum ts (k + 1) hi) = -balSum ts (k - 1 + 1) hi := by
  rw [show k - 1 + 1 = k by ring, balSum_peel_left ts k hi hk]
  unfold balW
  split_ifs <;> first | ring1 | simp_all

/-- The backward operator scan finds the rightmost target operator whose
suffix weight is zero: if `m` carries `t1`/`t2` with suffix weight zero
and every target operator strictly above `m` has nonzero suffix weight,
the scan started at `k ≥ m` (with enough fuel and the matching counter)
returns `m`. -/
theorem scanOp_finds (t1 t2 : TokType) (ts : List Token) (hi m : Int)
    (hm1 : (getTok ts m).type = t1 ∨ (getTok ts m).type = t2)
    (hm0 : balSum ts (m + 1) hi = 0)
    (habove : ∀ j, m < j → j ≤ hi →
      ((getTok ts j).type = t1 ∨ (getTok ts j).type = t2) →
      balSum ts (j + 1) hi ≠ 0) :
    ∀ (n : Nat) (k pn : Int), m ≤ k → k ≤ hi → k - m ≤ (n : Int) →
      pn = -balSum ts (k + 1) hi →
      scanOp t1 t2 ts n k pn = some m := by
  intro n
  induction n with
  | zero =>
    intro k pn hk1 hk2 hk3 hpn
    have hkm : k = m := by omega
    subst hkm
    rw [scanOp, if_pos ⟨hm1, by rw [hpn, hm0]; ring⟩]
  | succ n ih =>
    intro k pn hk1 hk2 hk3 hpn
    rcases eq_or_lt_of_le hk1 with rfl | hlt
    · rw [scanOp, if_pos ⟨hm1, by rw [hpn, hm0]; ring⟩]
    · have hnot : ¬(((getTok ts k).type = t1 ∨ (getTok ts k).type = t2) ∧ pn = 0) := by
        rintro ⟨hop, hz⟩
        exact habove k hlt hk2 hop (by omega)
      rw [scanOp, if_neg hnot, hpn, scan_pn_step ts hi k hk2]
      exact ih (k - 1) (-balSum ts (k - 1 + 1) hi) (by omega) (by omega)
        (by omega) rfl

/-- If every target operator in the scanned window has nonzero suffix
weight, the backward scan returns nothing. -/
theorem scanOp_none (t1 t2 : TokType) (ts : List Token) (hi : Int) :
    ∀ (n : Nat) (k pn : Int), k ≤ hi →
      (∀ j, k - (n : Int) ≤ j → j ≤ k →
        ((getTok ts j).type = t1 ∨ (getTok ts j).type = t2) →
        balSum ts (j + 1) hi ≠ 0) →
      pn = -balSum ts (k + 1) hi →
      scanOp t1 t2 ts n k pn = none := by
  intro n
  induction n with
  | zero =>
    intro k pn hk hall hpn
    have hnot : ¬(((getTok ts k).type = t1 ∨ (getTok ts k).type = t2) ∧ pn = 0) := by
      rintro ⟨hop, hz⟩
      exact hall k (by omega) le_rfl hop (by omega)
    rw [scanOp, if_neg hnot]
  | succ n ih =>
    intro k pn hk hall hpn
    have hnot : ¬(((getTok ts k).type = t1 ∨ (getTok ts k).type = t2) ∧ pn = 0) := by
      rintro ⟨hop, hz⟩
      exact hall k (by omega) le_rfl hop (by omega)
    rw [scanOp, if_neg hnot, hpn, scan_pn_step ts hi k hk]
    refine ih (k - 1) (-balSum ts (k - 1 + 1) hi) (by omega) ?_ rfl
    intro j hj1 hj2 hj3
    exact hall j (by omega) (by omega) hj3

/-- Unfolding `eval` on a width-0 range. -/
theorem evalV_base0 (f : Nat) (ts : List Token) (i : Int) :
    evalV (f + 1) ts i i =
      (if (getTok ts i).type = TK_NUMBER then some (atoi (getTok ts i).str)
       else if (getTok ts i).type = TK_HEX_NUMBER then some (strtol16 (getTok ts i).str)
       else if (getTok ts i).type = TK_REG_NAME then some 2
       else none) := by
  unfold evalV
  rw [eval, if_neg (by omega : ¬ i > i), if_pos (by omega : i - i = 0 ∨ i - i = 1)]
  simp only [sub_self]
  norm_num

/-- Unfolding `eval` when an enclosing parenthesis pair is detected. -/
theorem evalV_unwrap (f : Nat) (ts : List Token) (lo hi : Int) (hw : lo + 2 ≤ hi)
    (hcp : check_parentheses ts lo hi = true)
    (ho : (getTok ts lo).type = TK_OPENPARENTHESIS)
    (hc : (getTok ts hi).type = TK_CLOSEPARENTHESIS)
    (hcpi : check_parentheses ts (lo + 1) (hi - 1) = true) :
    evalV (f + 1) ts lo hi = evalV f ts (lo + 1) (hi - 1) := by
  unfold evalV
  rw [eval, if_neg (by omega), if_neg (by omega), if_neg (by simp [hcp]),
    if_pos ⟨ho, hc, hcpi⟩]

/-- Unfolding `eval` when the additive backward scan finds a split. -/
theorem evalV_split_add (f : Nat) (ts : List Token) (lo k hi : Int) (hw : lo + 2 ≤ hi)
    (hcp : check_parentheses ts lo hi = true)
    (hnw : ¬((getTok ts lo).type = TK_OPENPARENTHESIS ∧
      (getTok ts hi).type = TK_CLOSEPARENTHESIS ∧
      check_parentheses ts (lo + 1) (hi - 1) = true))
    (hscan : scanOp TK_ADD TK_SUB ts (hi - lo).toNat hi 0 = some k) :
    evalV (f + 1) ts lo hi =
      (match evalV f ts lo (k - 1), evalV f ts (k + 1) hi with
       | some a, some b =>
         if (getTok ts k).type = TK_ADD then some (a + b) else some (a - b)
       | _, _ => none) := by
  unfold evalV
  rw [eval, if_neg (by omega), if_neg (by omega), if_neg (by simp [hcp]),
    if_neg hnw, hscan]

/-- Unfolding `eval` when the additive scan fails and the multiplicative
backward scan finds a split. -/
theorem evalV_split_mul (f : Nat) (ts : List Token) (lo k hi : Int) (hw : lo + 2 ≤ hi)
    (hcp : check_parentheses ts lo hi = true)
    (hnw : ¬((getTok ts lo).type = TK_OPENPARENTHESIS ∧
      (getTok ts hi).type = TK_CLOSEPARENTHESIS ∧
      check_parentheses ts (lo + 1) (hi - 1) = true))
    (hadd : scanOp TK_ADD TK_SUB ts (hi - lo).toNat hi 0 = none)
    (hscan : scanOp TK_MULTIPLY TK_DIVIDE ts (hi - lo).toNat hi 0 = some k) :
    evalV (f + 1) ts lo hi =
      (match evalV f ts lo (k - 1), evalV f ts (k + 1) hi with
       | some a, some b =>
         if (getTok ts k).type = TK_MULTIPLY then some (a * b)
         else some (Int.tdiv a b)
       | _, _ => none) := by
  unfold evalV
  rw [eval, if_neg (by omega), if_neg (by omega), if_neg (by simp [hcp]),
    if_neg hnw, hadd, hscan]

/-- The evaluator computes the value assigned by the standard precedence
grammar: on any token range that parses at any grammar level, `eval`
(with sufficient fuel, which the top-level `expr` always supplies)
returns exactly the parse's value. -/
theorem P_eval {ts : List Token} {l : Lv} {lo hi v : Int} (h : P ts l lo hi v) :
    ∀ f : Nat, (hi - lo).toNat < f → evalV f ts lo hi = some v := by
  induction h with
  | num i hty =>
    intro f hf
    obtain ⟨f', rfl⟩ : ∃ f', f = f' + 1 := ⟨f - 1, by omega⟩
    rw [evalV_base0, if_pos hty]
  | hex i hty =>
    intro f hf
    obtain ⟨f', rfl⟩ : ∃ f', f = f' + 1 := ⟨f - 1, by omega⟩
    rw [evalV_base0, if_neg (by simp [hty]), if_pos hty]
  | paren lo hi v ho hc he ihe =>
    intro f hf
    have hle := P_le he
    obtain ⟨f', rfl⟩ : ∃ f', f = f' + 1 := ⟨f - 1, by omega⟩
    have hP : P ts Lv.f lo hi v := P.paren lo hi v ho hc he
    have hcp : check_parentheses ts lo hi = true :=
      (check_parentheses_spec ts lo hi).mpr ⟨P_sufNonneg hP, P_balZero hP⟩
    have hcpi : check_parentheses ts (lo + 1) (hi - 1) = true :=
      (check_parentheses_spec ts (lo + 1) (hi - 1)).mpr ⟨P_sufNonneg he, P_balZero he⟩
    rw [evalV_unwrap f' ts lo hi (by omega) hcp ho hc hcpi]
    exact ihe f' (by omega)
  | tf _ _ _ _ ih => exact ih
  | et _ _ _ _ ih => exact ih
  | add lo k hi a b h1 hop h2 ih1 ih2 =>
    intro f hf
    have hl1 := P_le h1
    have hl2 := P_le h2
    obtain ⟨f', rfl⟩ : ∃ f', f = f' + 1 := ⟨f - 1, by omega⟩
    have hP : P ts Lv.e lo hi (a + b) := P.add lo k hi a b h1 hop h2
    have hcp : check_parentheses ts lo hi = true :=
      (check_parentheses_spec ts lo hi).mpr ⟨P_sufNonneg hP, P_balZero hP⟩
    have hscan : scanOp TK_ADD TK_SUB ts (hi - lo).toNat hi 0 = some k := by
      refine scanOp_finds TK_ADD TK_SUB ts hi k (Or.inl hop) (P_balZero h2)
        (fun j hj1 hj2 hj3 => by
          have := P_t_addsub_inside h2 (Or.inl rfl) j (by omega) hj2 hj3
          omega)
        (hi - lo).toNat hi 0 (by omega) le_rfl (by omega) ?_
      rw [balSum_empty ts (hi + 1) hi (by omega)]
      ring
    have hnw : ¬((getTok ts lo).type = TK_OPENPARENTHESIS ∧
        (getTok ts hi).type = TK_CLOSEPARENTHESIS ∧
        check_parentheses ts (lo + 1) (hi - 1) = true) := by
      rintro ⟨hlo, hhi, hcpi⟩
      have hkh : k + 1 < hi := by
        rcases eq_or_lt_of_le hl2 with heq | hgt
        · exfalso
          rcases P_single_type h2 heq with hA | hA <;>
            · rw [heq, hhi] at hA
              exact absurd hA (by decide)
        · exact hgt
      have hsuf := ((check_parentheses_spec ts (lo + 1) (hi - 1)).mp hcpi).1
      have hbw : balW TK_CLOSEPARENTHESIS = 1 := by decide
      have hneg : balSum ts (k + 1) (hi - 1) = -1 := by
        have hp : balSum ts (k + 1) hi =
            balSum ts (k + 1) (hi - 1) + balW (getTok ts hi).type :=
          balSum_peel ts (k + 1) hi (by omega)
        rw [P_balZero h2, hhi] at hp
        omega
      have := hsuf (k + 1) (by omega) (by omega)
      omega
    rw [evalV_split_add f' ts lo k hi (by omega) hcp hnw hscan,
      ih1 f' (by omega), ih2 f' (by omega)]
    show (if (getTok ts k).type = TK_ADD then some (a + b) else some (a - b)) =
      some (a + b)
    rw [if_pos hop]
  | sub lo k hi a b h1 hop h2 ih1 ih2 =>
    intro f hf
    have hl1 := P_le h1
    have hl2 := P_le h2
    obtain ⟨f', rfl⟩ : ∃ f', f = f' + 1 := ⟨f - 1, by omega⟩
    have hP : P ts Lv.e lo hi (a - b) := P.sub lo k hi a b h1 hop h2
    have hcp : check_parentheses ts lo hi = true :=
      (check_parentheses_spec ts lo hi).mpr ⟨P_sufNonneg hP, P_balZero hP⟩
    have hscan : scanOp TK_ADD TK_SUB ts (hi - lo).toNat hi 0 = some k := by
      refine scanOp_finds TK_ADD TK_SUB ts hi k (Or.inr hop) (P_balZero h2)
        (fun j hj1 hj2 hj3 => by
          have := P_t_addsub_inside h2 (Or.inl rfl) j (by omega) hj2 hj3
          omega)
        (hi - lo).toNat hi 0 (by omega) le_rfl (by omega) ?_
      rw [balSum_empty ts (hi + 1) hi (by omega)]
      ring
    have hnw : ¬((getTok ts lo).type = TK_OPENPARENTHESIS ∧
        (getTok ts hi).type = TK_CLOSEPARENTHESIS ∧
        check_parentheses ts (lo + 1) (hi - 1) = true) := by
      rintro ⟨hlo, hhi, hcpi⟩
      have hkh : k + 1 < hi := by
        rcases eq_or_lt_of_le hl2 with heq | hgt
        · exfalso
          rcases P_single_type h2 heq with hA | hA <;>
            · rw [heq, hhi] at hA
              exact absurd hA (by decide)
        · exact hgt
      have hsuf := ((check_parentheses_spec ts (lo + 1) (hi - 1)).mp hcpi).1
      have hbw : balW TK_CLOSEPARENTHESIS = 1 := by decide
      have hneg : balSum ts (k + 1) (hi - 1) = -1 := by
        have hp : balSum ts (k + 1) hi =
            balSum ts (k + 1) (hi - 1) + balW (getTok ts hi).type :=
          balSum_peel ts (k + 1) hi (by omega)
        rw [P_balZero h2, hhi] at hp
        omega
      have := hsuf (k + 1) (by omega) (by omega)
      omega
    rw [evalV_split_add f' ts lo k hi (by omega) hcp hnw hscan,
      ih1 f' (by omega), ih2 f' (by omega)]
    show (if (getTok ts k).type = TK_ADD then some (a + b) else some (a - b)) =
      some (a - b)
    rw [if_neg (by simp [hop])]
  | mul lo k hi a b h1 hop h2 ih1 ih2 =>
    intro f hf
    have hl1 := P_le h1
    have hl2 := P_le h2
    obtain ⟨f', rfl⟩ : ∃ f', f = f' + 1 := ⟨f - 1, by omega⟩
    have hP : P ts Lv.t lo hi (a * b) := P.mul lo k hi a b h1 hop h2
    have hcp : check_parentheses ts lo hi = true :=
      (check_parentheses_spec ts lo hi).mpr ⟨P_sufNonneg hP, P_balZero hP⟩
    have hadd : scanOp TK_ADD TK_SUB ts (hi - lo).toNat hi 0 = none := by
      refine scanOp_none TK_ADD TK_SUB ts hi (hi - lo).toNat hi 0 le_rfl
        (fun j hj1 hj2 hj3 => by
          have := P_t_addsub_inside hP (Or.inl rfl) j (by omega) hj2 hj3
          omega) ?_
      rw [balSum_empty ts (hi + 1) hi (by omega)]
      ring
    have hscan : scanOp TK_MULTIPLY TK_DIVIDE ts (hi - lo).toNat hi 0 = some k := by
      refine scanOp_finds TK_MULTIPLY TK_DIVIDE ts hi k (Or.inl hop) (P_balZero h2)
        (fun j hj1 hj2 hj3 => by
          have := P_f_op_inside h2 rfl j (by omega) hj2
            (by rcases hj3 with h | h
                · exact Or.inr (Or.inr (Or.inl h))
                · exact Or.inr (Or.inr (Or.inr h)))
          omega)
        (hi - lo).toNat hi 0 (by omega) le_rfl (by omega) ?_
      rw [balSum_empty ts (hi + 1) hi (by omega)]
      ring
    have hnw : ¬((getTok ts lo).type = TK_OPENPARENTHESIS ∧
        (getTok ts hi).type = TK_CLOSEPARENTHESIS ∧
        check_parentheses ts (lo + 1) (hi - 1) = true) := by
      rintro ⟨hlo, hhi, hcpi⟩
      have hkh : k + 1 < hi := by
        rcases eq_or_lt_of_le hl2 with heq | hgt
        · exfalso
          rcases P_single_type h2 heq with hA | hA <;>
            · rw [heq, hhi] at hA
              exact absurd hA (by decide)
        · exact hgt
      have hsuf := ((check_parentheses_spec ts (lo + 1) (hi - 1)).mp hcpi).1
      have hbw : balW TK_CLOSEPARENTHESIS = 1 := by decide
      have hneg : balSum ts (k + 1) (hi - 1) = -1 := by
        have hp : balSum ts (k + 1) hi =
            balSum ts (k + 1) (hi - 1) + balW (getTok ts hi).type :=
          balSum_peel ts (k + 1) hi (by omega)
        rw [P_balZero h2, hhi] at hp
        omega
      have := hsuf (k + 1) (by omega) (by omega)
      omega
    rw [evalV_split_mul f' ts lo k hi (by omega) hcp hnw hadd hscan,
      ih1 f' (by omega), ih2 f' (by omega)]
    show (if (getTok ts k).type = TK_MULTIPLY then some (a * b)
      else some (Int.tdiv a b)) = some (a * b)
    rw [if_pos hop]
  | div lo k hi a b h1 hop h2 hb ih1 ih2 =>
    intro f hf
    have hl1 := P_le h1
    have hl2 := P_le h2
    obtain ⟨f', rfl⟩ : ∃ f', f = f' + 1 := ⟨f - 1, by omega⟩
    have hP : P ts Lv.t lo hi (Int.tdiv a b) := P.div lo k hi a b h1 hop h2 hb
    have hcp : check_parentheses ts lo hi = true :=
      (check_parentheses_spec ts lo hi).mpr ⟨P_sufNonneg hP, P_balZero hP⟩
    have hadd : scanOp TK_ADD TK_SUB ts (hi - lo).toNat hi 0 = none := by
      refine scanOp_none TK_ADD TK_SUB ts hi (hi - lo).toNat hi 0 le_rfl
        (fun j hj1 hj2 hj3 => by
          have := P_t_addsub_inside hP (Or.inl rfl) j (by omega) hj2 hj3
          omega) ?_
      rw [balSum_empty ts (hi + 1) hi (by omega)]
      ring
    have hscan : scanOp TK_MULTIPLY TK_DIVIDE ts (hi - lo).toNat hi 0 = some k := by
      refine scanOp_finds TK_MULTIPLY TK_DIVIDE ts hi k (Or.inr hop) (P_balZero h2)
        (fun j hj1 hj2 hj3 => by
          have := P_f_op_inside h2 rfl j (by omega) hj2
            (by rcases hj3 with h | h
                · exact Or.inr (Or.inr (Or.inl h))
                · exact Or.inr (Or.inr (Or.inr h)))
          omega)
        (hi - lo).toNat hi 0 (by omega) le_rfl (by omega) ?_
      rw [balSum_empty ts (hi + 1) hi (by omega)]
      ring
    have hnw : ¬((getTok ts lo).type = TK_OPENPARENTHESIS ∧
        (getTok ts hi).type = TK_CLOSEPARENTHESIS ∧
        check_parentheses ts (lo + 1) (hi - 1) = true) := by
      rintro ⟨hlo, hhi, hcpi⟩
      have hkh : k + 1 < hi := by
        rcases eq_or_lt_of_le hl2 with heq | hgt
        · exfalso
          rcases P_single_type h2 heq with hA | hA <;>
            · rw [heq, hhi] at hA
              exact absurd hA (by decide)
        · exact hgt
      have hsuf := ((check_parentheses_spec ts (lo + 1) (hi - 1)).mp hcpi).1
      have hbw : balW TK_CLOSEPARENTHESIS = 1 := by decide
      have hneg : balSum ts (k + 1) (hi - 1) = -1 := by
        have hp : balSum ts (k + 1) hi =
            balSum ts (k + 1) (hi - 1) + balW (getTok ts hi).type :=
          balSum_peel ts (k + 1) hi (by omega)
        rw [P_balZero h2, hhi] at hp
        omega
      have := hsuf (k + 1) (by omega) (by omega)
      omega
    rw [evalV_split_mul f' ts lo k hi (by omega) hcp hnw hadd hscan,
      ih1 f' (by omega), ih2 f' (by omega)]
    show (if (getTok ts k).type = TK_MULTIPLY then some (a * b)
      else some (Int.tdiv a b)) = some (Int.tdiv a b)
    rw [if_neg (by simp [hop])]

/-- C1: the full lexer+evaluator pipeline realizes standard operator
precedence (multiplicative binds tighter because the additive backward
scan runs first) and left-associative grouping (the backward scan splits
at the rightmost depth-0 operator, and the standard grammar `P` is
left-recursive): for every lexed token sequence that parses under the
standard precedence grammar, `expr` returns the grammar's value; in
particular `2+3*4 = 14`, `(2+3)*4 = 20`, `10-3-2 = 5`, `20/4/5 = 1`. -/
theorem c1_precedence_associativity :
    (∀ (e : List Char) (ts : List Token) (v : Int),
      make_token e = .ok ts → P ts Lv.e 0 ((ts.length : Int) - 1) v →
      expr e = some v) ∧
    expr "2+3*4".data = some 14 ∧
    expr "(2+3)*4".data = some 20 ∧
    expr "10-3-2".data = some 5 ∧
    expr "20/4/5".data = some 1 := by
  refine ⟨?_, by decide, by decide, by decide, by decide⟩
  intro e ts v hmk hp
  unfold expr
  simp only [hmk]
  exact P_eval hp (ts.length + 1) (by omega)

/-- C1 witness: the general theorem applied to the concrete input
`"2+3*4"` with its explicit parse derivation. -/
theorem c1_precedence_associativity_witness :
    make_token "2+3*4".data =
      .ok [⟨TK_NUMBER, ['2']⟩, ⟨TK_ADD, []⟩, ⟨TK_NUMBER, ['3']⟩,
        ⟨TK_MULTIPLY, []⟩, ⟨TK_NUMBER, ['4']⟩] ∧
    expr "2+3*4".data = some 14 := by
  refine ⟨by decide, ?_⟩
  refine c1_precedence_associativity.1 "2+3*4".data
    [⟨TK_NUMBER, ['2']⟩, ⟨TK_ADD, []⟩, ⟨TK_NUMBER, ['3']⟩,
      ⟨TK_MULTIPLY, []⟩, ⟨TK_NUMBER, ['4']⟩] 14 (by decide) ?_
  exact P.add 0 1 4 2 12
    (P.et 0 0 2 (P.tf 0 0 2 (P.num 0 (by decide))))
    (by decide)
    (P.mul 2 3 4 3 4 (P.tf 2 2 3 (P.num 2 (by decide))) (by decide)
      (P.num 4 (by decide)))

/-- C2 counterexample: the claim says a matched `+` is never reclassified
and is always appended as the binary plus token, but lexing `"+3"`
appends the `+` as `TK_DEREF` (the C switch lets `TK_ADD` and `TK_SUB`
fall into the same reclassification branch as `TK_MULTIPLY`). -/
theorem c2_plus_never_reclassified_cex :
    make_token "+3".data = .ok [⟨TK_DEREF, []⟩, ⟨TK_NUMBER, ['3']⟩] ∧
    make_token "-3".data = .ok [⟨TK_DEREF, []⟩, ⟨TK_NUMBER, ['3']⟩] := by decide

/-- C2 (amended): the dereference reclassification applies to matched
`+`, `-` and `*` alike: each is appended as `TK_DEREF` exactly when there
is no previous accepted token or the previous token is plus, minus,
multiply, divide, or open-paren, and is appended as its own binary
operator token otherwise; `"*0x2000"` lexes as [dereference, hex-literal]
and `"3*0x2000"` as [decimal-literal, multiply, hex-literal]. -/
theorem c2_deref_reclassification :
    (∀ f rest pos acc, acc.length < 32 →
      make_token_loop (f + 1) ('+' :: rest) pos acc =
        (if deref_prev_ok acc then
          make_token_loop f rest (pos + 1) (⟨TK_DEREF, []⟩ :: acc)
        else make_token_loop f rest (pos + 1) (⟨TK_ADD, []⟩ :: acc))) ∧
    (∀ f rest pos acc, acc.length < 32 →
      make_token_loop (f + 1) ('-' :: rest) pos acc =
        (if deref_prev_ok acc then
          make_token_loop f rest (pos + 1) (⟨TK_DEREF, []⟩ :: acc)
        else make_token_loop f rest (pos + 1) (⟨TK_SUB, []⟩ :: acc))) ∧
    (∀ f rest pos acc, acc.length < 32 →
      make_token_loop (f + 1) ('*' :: rest) pos acc =
        (if deref_prev_ok acc then
          make_token_loop f rest (pos + 1) (⟨TK_DEREF, []⟩ :: acc)
        else make_token_loop f rest (pos + 1) (⟨TK_MULTIPLY, []⟩ :: acc))) ∧
    make_token "*0x2000".data =
      .ok [⟨TK_DEREF, []⟩, ⟨TK_HEX_NUMBER, "0x2000".data⟩] ∧
    make_token "3*0x2000".data =
      .ok [⟨TK_NUMBER, ['3']⟩, ⟨TK_MULTIPLY, []⟩, ⟨TK_HEX_NUMBER, "0x2000".data⟩] := by
  refine ⟨?_, ?_, ?_, by decide, by decide⟩ <;>
    (intro f rest pos acc hlen
     by_cases hd : deref_prev_ok acc = true <;>
       simp [make_token_loop, matchRule, hd, Nat.not_le.mpr hlen])

/-- C2 witness: the reclassification step applied at the concrete state
reached while lexing `"+3"` from scratch (empty accumulator). -/
theorem c2_deref_reclassification_witness :
    make_token_loop 2 ('+' :: ['3']) 0 [] =
      (if deref_prev_ok [] then make_token_loop 1 ['3'] 1 [⟨TK_DEREF, []⟩]
       else make_token_loop 1 ['3'] 1 [⟨TK_ADD, []⟩]) :=
  c2_deref_reclassification.1 1 ['3'] 0 [] (by decide)

/-- C3 counterexample: the claim says a width-2 range holding a
dereference token followed by a register-name token evaluates to a memory
read, but `eval` has no case for that shape and hits `assert(0)`
(modelled as `none`). -/
theorem c3_deref_register_aborts_cex :
    evalV 2 [⟨TK_DEREF, []⟩, ⟨TK_REG_NAME, "$eax".data⟩] 0 1 = none := by decide

/-- C3 (amended): with `EXPR_UNIT_TEST_ENABLED = 1` (the compiled
configuration), a width-1 register-name range evaluates to the placeholder
constant 2 and a width-2 dereference-then-literal range to the placeholder
constant 1, independently of any collaborator; a dereference followed by a
register-name token is unhandled and fails the evaluator's assertion. -/
theorem c3_unit_test_leaf_values :
    (∀ f s, evalV (f + 1) [⟨TK_REG_NAME, s⟩] 0 0 = some 2) ∧
    (∀ f s, evalV (f + 1) [⟨TK_DEREF, []⟩, ⟨TK_NUMBER, s⟩] 0 1 = some 1) ∧
    (∀ f s, evalV (f + 1) [⟨TK_DEREF, []⟩, ⟨TK_HEX_NUMBER, s⟩] 0 1 = some 1) ∧
    (∀ f s, evalV (f + 1) [⟨TK_DEREF, []⟩, ⟨TK_REG_NAME, s⟩] 0 1 = none) := by
  refine ⟨?_, ?_, ?_, ?_⟩ <;> (intro f s; simp [evalV, eval, getTok])

/-- C4: evaluating the tokenizations of `"(1+2"` and `"1+2)"`
(unbalanced parentheses) makes `check_parentheses` fail and `eval` hit
`assert(0)` — a process abort, modelled as `none` — rather than
returning a recoverable `MalformedExpression` error as the spec requires. -/
theorem c4_unbalanced_parens_abort :
    make_token "(1+2".data =
      .ok [⟨TK_OPENPARENTHESIS, []⟩, ⟨TK_NUMBER, ['1']⟩, ⟨TK_ADD, []⟩, ⟨TK_NUMBER, ['2']⟩] ∧
    check_parentheses
      [⟨TK_OPENPARENTHESIS, []⟩, ⟨TK_NUMBER, ['1']⟩, ⟨TK_ADD, []⟩, ⟨TK_NUMBER, ['2']⟩]
      0 3 = false ∧
    expr "(1+2".data = none ∧
    make_token "1+2)".data =
      .ok [⟨TK_NUMBER, ['1']⟩, ⟨TK_ADD, []⟩, ⟨TK_NUMBER, ['2']⟩, ⟨TK_CLOSEPARENTHESIS, []⟩] ∧
    check_parentheses
      [⟨TK_NUMBER, ['1']⟩, ⟨TK_ADD, []⟩, ⟨TK_NUMBER, ['2']⟩, ⟨TK_CLOSEPARENTHESIS, []⟩]
      0 3 = false ∧
    expr "1+2)".data = none := by decide

/-- C5: the outer parenthesis pair is unwrapped only when the balance
check passes for the whole range and for the strict interior; for
`"(1)+(2)"` the interior check over `[1, 5]` fails, so the evaluator
splits at the `+` — the recorded call ranges are the whole range, the
two operand ranges `(0,2)` and `(4,6)` and their interiors, never the
non-enclosed interior `(1,5)` — and the value is 3. -/
theorem c5_paren_unwrap_non_enclosing :
    make_token "(1)+(2)".data =
      .ok [⟨TK_OPENPARENTHESIS, []⟩, ⟨TK_NUMBER, ['1']⟩, ⟨TK_CLOSEPARENTHESIS, []⟩,
        ⟨TK_ADD, []⟩, ⟨TK_OPENPARENTHESIS, []⟩, ⟨TK_NUMBER, ['2']⟩,
        ⟨TK_CLOSEPARENTHESIS, []⟩] ∧
    check_parentheses
      [⟨TK_OPENPARENTHESIS, []⟩, ⟨TK_NUMBER, ['1']⟩, ⟨TK_CLOSEPARENTHESIS, []⟩,
        ⟨TK_ADD, []⟩, ⟨TK_OPENPARENTHESIS, []⟩, ⟨TK_NUMBER, ['2']⟩,
        ⟨TK_CLOSEPARENTHESIS, []⟩] 0 6 = true ∧
    check_parentheses
      [⟨TK_OPENPARENTHESIS, []⟩, ⟨TK_NUMBER, ['1']⟩, ⟨TK_CLOSEPARENTHESIS, []⟩,
        ⟨TK_ADD, []⟩, ⟨TK_OPENPARENTHESIS, []⟩, ⟨TK_NUMBER, ['2']⟩,
        ⟨TK_CLOSEPARENTHESIS, []⟩] 1 5 = false ∧
    expr "(1)+(2)".data = some 3 ∧
    expr_trace "(1)+(2)".data = [(0, 6), (0, 2), (1, 1), (4, 6), (5, 5)] := by decide

/-- C8 counterexample: against the window collaborator mapping
`[0x100000, 0x100010)`, `x 2 0x100000` prints one row of 8 bytes
(`group_num = ceil(2/8) = 1`), not the two rows the claim states; and
the address argument is parsed by `strtol(..., 16)` rather than the
expression evaluator, so `x 2 1+1` is rejected as unsupported params
instead of evaluating `1+1`. -/
theorem c8_x_command_cex :
    cmd_x pmem_window read_window (some "2 0x100000".data) =
      .output [(1048576, [0, 1, 2, 3, 4, 5, 6, 7])] false ∧
    cmd_x pmem_window read_window (some "2 1+1".data) = .unsupported := by decide

/-- C8 (amended): `cmd_x` parses N with `atol` and EXPR as a hexadecimal
literal via `strtol` base 16 requiring full consumption (not via the
expression evaluator), prints `ceil(N/8)` rows of 8 hex-formatted bytes
(so `x 2 0x100000` prints one full row and `x 16 0x100000` two), stops
with the `[PMEM OUT OF LIMIT]` marker at the first address outside
physical memory, and reports `unsupported command params` for missing or
malformed arguments. -/
theorem c8_x_command_behavior :
    cmd_x pmem_window read_window (some "2 0x100000".data) =
      .output [(1048576, [0, 1, 2, 3, 4, 5, 6, 7])] false ∧
    cmd_x pmem_window read_window (some "16 0x100000".data) =
      .output [(1048576, [0, 1, 2, 3, 4, 5, 6, 7]),
        (1048584, [8, 9, 10, 11, 12, 13, 14, 15])] false ∧
    cmd_x pmem_window read_window (some "2 0xFFFFFFF0".data) =
      .output [(4294967280, [])] true ∧
    cmd_x pmem_window read_window none = .unsupported ∧
    cmd_x pmem_window read_window (some "2".data) = .unsupported ∧
    cmd_x pmem_window read_window (some "2 0x10zz".data) = .unsupported := by decide

/-- C9 counterexample: the lexer accepts the empty input (producing zero
tokens), and `expr` then passes the range `(0, nr_token - 1) = (0, -1)`
to the evaluator — the initial call violates `lo ≤ hi`. -/
theorem c9_empty_input_range_cex :
    make_token [] = .ok [] ∧ expr_trace [] = [(0, -1)] ∧ ¬ range_ok 0 (0, -1) := by decide

/-- Every successful run of the lexer loop keeps the token buffer within
its bounds: starting from an in-bounds accumulator, the final token list
has at most 32 entries, every stored lexeme has at most 31 characters,
and no equality token is ever appended. -/
theorem make_token_loop_inv (f : Nat) : ∀ cs pos acc ts,
    make_token_loop f cs pos acc = .ok ts →
    acc.length ≤ 32 →
    (∀ t ∈ acc, t.str.length ≤ 31 ∧ t.type ≠ TK_EQ) →
    ts.length ≤ 32 ∧ ∀ t ∈ ts, t.str.length ≤ 31 ∧ t.type ≠ TK_EQ := by
  induction f with
  | zero =>
    intro cs pos acc ts h ha hs
    cases cs with
    | nil =>
      simp only [make_token_loop, LexResult.ok.injEq] at h
      subst h
      exact ⟨by simpa using ha, fun t ht => hs t (by simpa using ht)⟩
    | cons c cs' => simp [make_token_loop] at h
  | succ f ih =>
    intro cs pos acc ts h ha hs
    cases cs with
    | nil =>
      simp only [make_token_loop, LexResult.ok.injEq] at h
      subst h
      exact ⟨by simpa using ha, fun t ht => hs t (by simpa using ht)⟩
    | cons c cs' =>
      rw [make_token_loop] at h
      rcases hm : matchRule (c :: cs') with _ | ⟨ty, len⟩ <;> rw [hm] at h
      · simp at h
      · cases ty <;>
          simp only [reduceCtorEq, eq_self_iff_true, true_or, or_true, false_or,
            or_false, or_self, if_true, if_false] at h <;>
          try simp at h
        case TK_NOTYPE => exact ih _ _ _ _ h ha hs
        case TK_NUMBER | TK_HEX_NUMBER | TK_REG_NAME =>
          split_ifs at h with hA hB
          refine ih _ _ _ _ h ?_ ?_
          · simp only [List.length_cons]; omega
          · intro t ht
            rcases List.mem_cons.mp ht with rfl | htl
            · exact ⟨by rw [List.length_take]; omega, by simp⟩
            · exact hs t htl
        case TK_ADD | TK_SUB | TK_MULTIPLY =>
          split_ifs at h with hD hA <;>
            (refine ih _ _ _ _ h ?_ ?_
             · simp only [List.length_cons]; omega
             · intro t ht
               rcases List.mem_cons.mp ht with rfl | htl
               · exact ⟨by simp, by simp⟩
               · exact hs t htl)
        case TK_DIVIDE | TK_OPENPARENTHESIS | TK_CLOSEPARENTHESIS =>
          split_ifs at h with hA
          refine ih _ _ _ _ h ?_ ?_
          · simp only [List.length_cons]; omega
          · intro t ht
            rcases List.mem_cons.mp ht with rfl | htl
            · exact ⟨by simp, by simp⟩
            · exact hs t htl

/-- C7 counterexample: a 31-character literal is accepted by the lexer
(the bound `check_substr_valid` enforces is `length < 32`, not
`length < 31` as the claim states). -/
theorem c7_lexeme_31_accepted_cex :
    make_token (List.replicate 31 '1') =
      .ok [⟨TK_NUMBER, List.replicate 31 '1'⟩] := by decide

/-- C7 (amended): the lexer validates every appended token against two
bounds before insertion — a buffer already holding 32 tokens fails with
the token-count overflow (so 33 single-character tokens overflow and the
accepted token list never exceeds 32 entries), and a literal/name token
is accepted only if its matched length is < 32 (at most 31 characters,
which is exactly what fits in the 32-byte `str` field), failing with the
lexeme overflow otherwise. -/
theorem c7_capacity_bounds :
    (∀ e ts, make_token e = .ok ts →
      ts.length ≤ 32 ∧ ∀ t ∈ ts, t.str.length ≤ 31) ∧
    make_token (List.replicate 33 '(') = .overflowTokens ∧
    make_token (List.replicate 32 '1') = .overflowLexeme ∧
    make_token (List.replicate 31 '1') =
      .ok [⟨TK_NUMBER, List.replicate 31 '1'⟩] := by
  refine ⟨?_, by decide, by decide, by decide⟩
  intro e ts h
  have := make_token_loop_inv (e.length + 1) e 0 [] ts h (by simp) (by simp)
  exact ⟨this.1, fun t ht => (this.2 t ht).1⟩

/-- C7 witness: the general bound applied to the concrete input `"1"`. -/
theorem c7_capacity_bounds_witness :
    make_token ['1'] = .ok [⟨TK_NUMBER, ['1']⟩] ∧
    ([(⟨TK_NUMBER, ['1']⟩ : Token)].length ≤ 32 ∧
      ∀ t ∈ [(⟨TK_NUMBER, ['1']⟩ : Token)], t.str.length ≤ 31) :=
  ⟨by decide, c7_capacity_bounds.1 ['1'] [⟨TK_NUMBER, ['1']⟩] (by decide)⟩

/-- C10: whenever the `==` rule matches at the current scan offset the
lexer loop reaches the unhandled `default: TODO();` branch and aborts
(`.todo`), and consequently no successfully lexed token list ever
contains an equality token (so no expression containing `==` reaches the
evaluator). -/
theorem c10_equality_token_aborts :
    (∀ f rest pos acc, make_token_loop (f + 1) ('=' :: '=' :: rest) pos acc = .todo) ∧
    (∀ e ts, make_token e = .ok ts → ∀ t ∈ ts, t.type ≠ TK_EQ) := by
  constructor
  · intro f rest pos acc
    simp [make_token_loop, matchRule]
  · intro e ts h t ht
    exact (((make_token_loop_inv (e.length + 1) e 0 [] ts h (by simp) (by simp)).2) t ht).2

/-- C10 witness: the abort at the concrete input `"=="`, and the
no-equality-token consequence at the concrete input `"1"`. -/
theorem c10_equality_token_aborts_witness :
    make_token_loop 3 ('=' :: '=' :: []) 0 [] = .todo ∧
    Token.type ⟨TK_NUMBER, ['1']⟩ ≠ TK_EQ :=
  ⟨c10_equality_token_aborts.1 2 [] 0 [],
    c10_equality_token_aborts.2 ['1'] [⟨TK_NUMBER, ['1']⟩] (by decide)
      ⟨TK_NUMBER, ['1']⟩ (by decide)⟩

/-- Result bound for the backward operator scan: a found index lies
between the scan's lower end (`k - n`) and its starting index `k`. -/
theorem scanOp_le (t1 t2 : TokType) (ts : List Token) :
    ∀ n k pn j, scanOp t1 t2 ts n k pn = some j →
      k - (n : Int) ≤ j ∧ j ≤ k := by
  intro n
  induction n with
  | zero =>
    intro k pn j h
    by_cases h1 : ((getTok ts k).type = t1 ∨ (getTok ts k).type = t2) ∧ pn = 0
    · rw [scanOp, if_pos h1] at h
      simp only [Option.some.injEq] at h; omega
    · rw [scanOp, if_neg h1] at h
      exact absurd h (by simp)
  | succ m ih =>
    intro k pn j h
    by_cases h1 : ((getTok ts k).type = t1 ∨ (getTok ts k).type = t2) ∧ pn = 0
    · rw [scanOp, if_pos h1] at h
      simp only [Option.some.injEq] at h; omega
    · rw [scanOp, if_neg h1] at h
      have := ih (k - 1) _ j h
      push_cast at this ⊢
      omega

/-- Every `eval` call records its own range first in its trace. -/
theorem eval_trace_head (f : Nat) (ts : List Token) (lo hi : Int) :
    ∃ rest, (eval f ts lo hi).2 = (lo, hi) :: rest := by
  cases f with
  | zero => exact ⟨[], rfl⟩
  | succ f =>
    rw [eval]
    repeat' split
    all_goals exact ⟨_, rfl⟩

/-- Range invariant of the evaluator's recursion: starting from a range
with `0 ≤ lo`, `hi < n` and `lo ≤ hi + 1`, every range it ever passes to
a recursive call (including itself) again satisfies those bounds — the
recursion stays inside the token buffer, but can produce empty ranges
(`lo = hi + 1`, rejected by the entry assertion). -/
theorem eval_trace_bounds (ts : List Token) (n : Int) :
    ∀ f lo hi, 0 ≤ lo → hi < n → lo ≤ hi + 1 →
      ∀ r ∈ (eval f ts lo hi).2, 0 ≤ r.1 ∧ r.2 < n ∧ r.1 ≤ r.2 + 1 := by
  intro f
  induction f with
  | zero =>
    intro lo hi h0 h1 h2 r hr
    simp only [eval, List.mem_singleton] at hr
    subst hr; exact ⟨h0, h1, h2⟩
  | succ f ih =>
    intro lo hi h0 h1 h2 r hr
    rw [eval] at hr
    by_cases hgt : lo > hi
    · rw [if_pos hgt] at hr
      simp only [List.mem_singleton] at hr; subst hr; exact ⟨h0, h1, h2⟩
    rw [if_neg hgt] at hr
    by_cases hbase : hi - lo = 0 ∨ hi - lo = 1
    · rw [if_pos hbase] at hr
      simp only [List.mem_singleton] at hr; subst hr; exact ⟨h0, h1, h2⟩
    rw [if_neg hbase] at hr
    by_cases hpar : check_parentheses ts lo hi = false
    · rw [if_pos hpar] at hr
      simp only [List.mem_singleton] at hr; subst hr; exact ⟨h0, h1, h2⟩
    rw [if_neg hpar] at hr
    by_cases hwrap : (getTok ts lo).type = TK_OPENPARENTHESIS ∧
        (getTok ts hi).type = TK_CLOSEPARENTHESIS ∧
        check_parentheses ts (lo + 1) (hi - 1) = true
    · rw [if_pos hwrap] at hr
      simp only [List.mem_cons] at hr
      rcases hr with rfl | hr
      · exact ⟨h0, h1, h2⟩
      · exact ih (lo + 1) (hi - 1) (by omega) (by omega) (by omega) r hr
    rw [if_neg hwrap] at hr
    rcases hadd : scanOp TK_ADD TK_SUB ts (hi - lo).toNat hi 0 with _ | k
    · rw [hadd] at hr
      rcases hmul : scanOp TK_MULTIPLY TK_DIVIDE ts (hi - lo).toNat hi 0 with _ | k
      · rw [hmul] at hr
        simp only [List.mem_singleton] at hr; subst hr; exact ⟨h0, h1, h2⟩
      · rw [hmul] at hr
        have hk := scanOp_le TK_MULTIPLY TK_DIVIDE ts _ _ _ _ hmul
        have hk2 : lo ≤ k ∧ k ≤ hi := by
          rcases hk with ⟨hk1, hk2⟩
          rw [Int.toNat_of_nonneg (by omega)] at hk1
          exact ⟨by omega, hk2⟩
        simp only [List.mem_cons, List.mem_append] at hr
        rcases hr with rfl | hr | hr
        · exact ⟨h0, h1, h2⟩
        · exact ih lo (k - 1) (by omega) (by omega) (by omega) r hr
        · exact ih (k + 1) hi (by omega) (by omega) (by omega) r hr
    · rw [hadd] at hr
      have hk := scanOp_le TK_ADD TK_SUB ts _ _ _ _ hadd
      have hk2 : lo ≤ k ∧ k ≤ hi := by
        rcases hk with ⟨hk1, hk2⟩
        rw [Int.toNat_of_nonneg (by omega)] at hk1
        exact ⟨by omega, hk2⟩
      simp only [List.mem_cons, List.mem_append] at hr
      rcases hr with rfl | hr | hr
      · exact ⟨h0, h1, h2⟩
      · exact ih lo (k - 1) (by omega) (by omega) (by omega) r hr
      · exact ih (k + 1) hi (by omega) (by omega) (by omega) r hr

/-- C9 (amended): for every input the lexer accepts with at least one
token, the initial range `expr` passes to the evaluator is `(0,
nr_token - 1)`, which satisfies `lo ≤ hi` with both indices in-bounds;
every range passed in the recursive calls stays within the token buffer
(`0 ≤ lo` and `hi < nr_token`) but may be empty by one (`lo = hi + 1`,
e.g. for the accepted input `"1+2+"`), which the evaluator's entry
assertion then rejects.  (As stated the claim fails: the lexer also
accepts inputs with zero tokens, for which the initial range is
`(0, -1)`.) -/
theorem c9_range_invariant : ∀ e ts, make_token e = .ok ts → 1 ≤ ts.length →
    (expr_trace e).head? = some (0, (ts.length : Int) - 1) ∧
    range_ok ts.length (0, (ts.length : Int) - 1) ∧
    ∀ r ∈ expr_trace e, 0 ≤ r.1 ∧ r.2 < (ts.length : Int) ∧ r.1 ≤ r.2 + 1 := by
  intro e ts h hlen
  have he : expr_trace e = (eval (ts.length + 1) ts 0 ((ts.length : Int) - 1)).2 := by
    simp [expr_trace, h]
  obtain ⟨rest, hr⟩ := eval_trace_head (ts.length + 1) ts 0 ((ts.length : Int) - 1)
  refine ⟨by rw [he, hr]; rfl, ?_, ?_⟩
  · refine ⟨le_refl 0, by push_cast; omega, by push_cast; omega⟩
  · rw [he]
    exact eval_trace_bounds ts (ts.length : Int) (ts.length + 1) 0
      ((ts.length : Int) - 1) (le_refl 0) (by omega) (by omega)

/-! Lemmas for the literal round-trip (C6). -/

theorem digitChar_toNat (d : Nat) (h : d < 10) : (digitChar d).toNat = 48 + d := by
  interval_cases d <;> rfl

theorem isDigitB_digitChar (d : Nat) (h : d < 10) : isDigitB (digitChar d) = true := by
  interval_cases d <;> decide

theorem isNonzeroDigitB_digitChar (d : Nat) (h1 : 1 ≤ d) (h2 : d < 10) :
    isNonzeroDigitB (digitChar d) = true := by
  interval_cases d <;> decide

/-- A nonzero decimal digit character is none of the characters the
lexer's earlier rules or `atoi`'s sign handling would consume. -/
theorem nonzero_digit_ne (c : Char) (h : isNonzeroDigitB c = true) :
    c ≠ ' ' ∧ c ≠ '=' ∧ c ≠ '+' ∧ c ≠ '-' ∧ c ≠ '*' ∧ c ≠ '/' ∧ c ≠ '(' ∧ c ≠ ')' := by
  simp only [isNonzeroDigitB, decide_eq_true_eq] at h
  refine ⟨?_, ?_, ?_, ?_, ?_, ?_, ?_, ?_⟩ <;> (rintro rfl; revert h; decide)

theorem decChars_ne_nil (n : Nat) : decChars n ≠ [] := by
  rw [decChars]
  split
  · simp
  · simp

theorem decChars_all_digits (n : Nat) : ∀ c ∈ decChars n, isDigitB c = true := by
  induction n using Nat.strong_induction_on with
  | _ n ih =>
    intro c hc
    rw [decChars] at hc
    split at hc
    · rcases List.mem_singleton.mp hc with rfl
      exact isDigitB_digitChar n (by omega)
    · rcases List.mem_append.mp hc with hc | hc
      · exact ih (n / 10) (Nat.div_lt_self (by omega) (by omega)) c hc
      · rcases List.mem_singleton.mp hc with rfl
        exact isDigitB_digitChar (n % 10) (Nat.mod_lt n (by omega))

theorem decChars_head_nonzero (n : Nat) (hn : 1 ≤ n) :
    ∃ c cs, decChars n = c :: cs ∧ isNonzeroDigitB c = true := by
  induction n using Nat.strong_induction_on with
  | _ n ih =>
    rw [decChars]
    split
    · exact ⟨digitChar n, [], rfl, isNonzeroDigitB_digitChar n hn (by omega)⟩
    · rename_i h10
      obtain ⟨c, cs, hcs, hc⟩ := ih (n / 10) (Nat.div_lt_self (by omega) (by omega))
        (Nat.one_le_div_iff (by omega) |>.mpr (by omega))
      exact ⟨c, cs ++ [digitChar (n % 10)], by rw [hcs]; rfl, hc⟩

theorem decChars_length_le (n : Nat) : ∀ k, 1 ≤ k → n < 10 ^ k →
    (decChars n).length ≤ k := by
  induction n using Nat.strong_induction_on with
  | _ n ih =>
    intro k hk hlt
    rw [decChars]
    split
    · simpa using hk
    · rename_i h10
      have hk2 : 2 ≤ k := by
        rcases Nat.lt_or_ge k 2 with h | h
        · interval_cases k
          simp at hlt; omega
        · exact h
      have hdiv : n / 10 < 10 ^ (k - 1) := by
        rw [Nat.div_lt_iff_lt_mul (by omega)]
        calc n < 10 ^ k := hlt
        _ = 10 ^ (k - 1) * 10 := by
            rw [← Nat.pow_succ]
            congr 1
            omega
      have := ih (n / 10) (Nat.div_lt_self (by omega) (by omega)) (k - 1) (by omega) hdiv
      simp only [List.length_append, List.length_singleton]
      omega

theorem parseDecAcc_append (xs ys : List Char) :
    ∀ acc, (∀ c ∈ xs, isDigitB c = true) →
      parseDecAcc acc (xs ++ ys) = parseDecAcc (parseDecAcc acc xs) ys := by
  induction xs with
  | nil => intro acc _; rfl
  | cons c xs ihx =>
    intro acc hall
    have hc : isDigitB c = true := hall c (by simp)
    simp only [List.cons_append, parseDecAcc, hc, if_true]
    exact ihx _ fun d hd => hall d (by simp [hd])

theorem parseDecAcc_decChars (n : Nat) :
    ∀ acc : Int, parseDecAcc acc (decChars n) =
      acc * 10 ^ (decChars n).length + n := by
  induction n using Nat.strong_induction_on with
  | _ n ih =>
    intro acc
    rw [decChars]
    split
    · rename_i h10
      simp only [parseDecAcc, isDigitB_digitChar n h10, if_true,
        List.length_singleton, pow_one]
      rw [digitChar_toNat n h10]
      push_cast
      ring
    · rename_i h10
      rw [parseDecAcc_append _ _ acc (decChars_all_digits (n / 10))]
      rw [ih (n / 10) (Nat.div_lt_self (by omega) (by omega)) acc]
      have hmod : n % 10 < 10 := Nat.mod_lt n (by omega)
      simp only [parseDecAcc, isDigitB_digitChar (n % 10) hmod, if_true,
        List.length_append, List.length_singleton]
      rw [digitChar_toNat (n % 10) hmod]
      have hn : (n : Int) = (n / 10 : Nat) * 10 + (n % 10 : Nat) := by
        exact_mod_cast (Nat.div_add_mod n 10).symm.trans (by ring_nf)
      rw [hn]
      push_cast
      ring

/-- `atoi` on a string that starts with neither a space nor a sign is the
plain digit fold. -/
theorem atoi_plain (c : Char) (cs : List Char)
    (h1 : c ≠ ' ') (h2 : c ≠ '-') (h3 : c ≠ '+') :
    atoi (c :: cs) = parseDecAcc 0 (c :: cs) := by
  unfold atoi
  rw [List.dropWhile_cons, if_neg (by simp [h1])]
  split
  · rename_i heq; rw [List.cons.injEq] at heq; exact absurd heq.1 h2
  · rename_i heq; rw [List.cons.injEq] at heq; exact absurd heq.1 h3
  · rfl

theorem atoi_decChars (n : Nat) (hn : 1 ≤ n) : atoi (decChars n) = n := by
  obtain ⟨c, cs, hcs, hc⟩ := decChars_head_nonzero n hn
  obtain ⟨hs, _, hp, hm, _⟩ := nonzero_digit_ne c hc
  rw [hcs, atoi_plain c cs hs hm hp, ← hcs, parseDecAcc_decChars n 0]
  simp

theorem matchRule_number (c : Char) (rest : List Char) (hc : isNonzeroDigitB c = true) :
    matchRule (c :: rest) = some (TK_NUMBER, 1 + (rest.takeWhile isDigitB).length) := by
  obtain ⟨h1, h2, h3, h4, h5, h6, h7, h8⟩ := nonzero_digit_ne c hc
  simp only [matchRule]
  rw [if_neg h1, if_neg h2, if_neg h3, if_neg h4, if_neg h5, if_neg h6, if_neg h7,
    if_neg h8, if_pos hc]

/-- One lexer-loop step on a literal / name token within both capacity
bounds: the matched prefix is stored and the loop continues after it. -/
theorem make_token_loop_literal (f : Nat) (c : Char) (rest : List Char) (pos : Nat)
    (acc : List Token) (ty : TokType) (len : Nat)
    (hm : matchRule (c :: rest) = some (ty, len))
    (hty : ty = TK_NUMBER ∨ ty = TK_HEX_NUMBER ∨ ty = TK_REG_NAME)
    (hacc : acc.length < 32) (hlen : len < 32) :
    make_token_loop (f + 1) (c :: rest) pos acc =
      make_token_loop f ((c :: rest).drop len) (pos + len)
        (⟨ty, (c :: rest).take len⟩ :: acc) := by
  simp only [make_token_loop, hm]
  rw [if_pos hty, if_neg (by omega), if_neg (by omega)]

theorem make_token_decChars (n : Nat) (h1 : 1 ≤ n) (h2 : n < 2 ^ 31) :
    make_token (decChars n) = .ok [⟨TK_NUMBER, decChars n⟩] := by
  obtain ⟨c, cs, hcs, hc⟩ := decChars_head_nonzero n h1
  have hall : ∀ d ∈ cs, isDigitB d = true := fun d hd =>
    decChars_all_digits n d (by rw [hcs]; exact List.mem_cons_of_mem c hd)
  have htw : cs.takeWhile isDigitB = cs := List.takeWhile_eq_self_iff.mpr hall
  have hmr : matchRule (c :: cs) = some (TK_NUMBER, 1 + cs.length) := by
    rw [matchRule_number c cs hc, htw]
  have hlen10 : (decChars n).length ≤ 10 :=
    decChars_length_le n 10 (by omega)
      (by calc n < 2 ^ 31 := h2
          _ < 10 ^ 10 := by norm_num)
  have hlencs : (decChars n).length = 1 + cs.length := by rw [hcs]; simp [Nat.add_comm]
  rw [make_token, hcs]
  have hfuel : (c :: cs).length + 1 = (cs.length + 1) + 1 := by simp
  rw [hfuel, make_token_loop_literal (cs.length + 1) c cs 0 [] TK_NUMBER
    (1 + cs.length) hmr (Or.inl rfl) (by simp) (by omega)]
  have hlenfull : 1 + cs.length = (c :: cs).length := by simp [Nat.add_comm]
  rw [hlenfull, List.drop_length, List.take_length]
  simp [make_token_loop]

theorem eval_single_number (f : Nat) (s : List Char) :
    evalV (f + 1) [⟨TK_NUMBER, s⟩] 0 0 = some (atoi s) := by
  simp [evalV, eval, getTok]

theorem eval_single_hex (f : Nat) (s : List Char) :
    evalV (f + 1) [⟨TK_HEX_NUMBER, s⟩] 0 0 = some (strtol16 s) := by
  simp [evalV, eval, getTok]

theorem expr_decChars (n : Nat) (h1 : 1 ≤ n) (h2 : n < 2 ^ 31) :
    expr (decChars n) = some (n : Int) := by
  unfold expr
  simp only [make_token_decChars n h1 h2, List.length_singleton, Nat.cast_one]
  have h := eval_single_number 1 (decChars n)
  unfold evalV at h
  rw [show (1 : Int) - 1 = (0 : Int) by norm_num, h, atoi_decChars n h1]

theorem isHexDigitB_hexDigitChar (d : Nat) (h : d < 16) :
    isHexDigitB (hexDigitChar d) = true := by
  interval_cases d <;> decide

theorem hexVal_hexDigitChar (d : Nat) (h : d < 16) :
    hexVal (hexDigitChar d) = (d : Int) := by
  interval_cases d <;> decide

theorem hexChars_ne_nil (n : Nat) : hexChars n ≠ [] := by
  rw [hexChars]
  split
  · simp
  · simp

theorem hexChars_all_hex (n : Nat) : ∀ c ∈ hexChars n, isHexDigitB c = true := by
  induction n using Nat.strong_induction_on with
  | _ n ih =>
    intro c hc
    rw [hexChars] at hc
    split at hc
    · rcases List.mem_singleton.mp hc with rfl
      exact isHexDigitB_hexDigitChar n (by omega)
    · rcases List.mem_append.mp hc with hc | hc
      · exact ih (n / 16) (Nat.div_lt_self (by omega) (by omega)) c hc
      · rcases List.mem_singleton.mp hc with rfl
        exact isHexDigitB_hexDigitChar (n % 16) (Nat.mod_lt n (by omega))

theorem hexChars_length_le (n : Nat) : ∀ k, 1 ≤ k → n < 16 ^ k →
    (hexChars n).length ≤ k := by
  induction n using Nat.strong_induction_on with
  | _ n ih =>
    intro k hk hlt
    rw [hexChars]
    split
    · simpa using hk
    · rename_i h16
      have hk2 : 2 ≤ k := by
        rcases Nat.lt_or_ge k 2 with h | h
        · interval_cases k
          simp at hlt; omega
        · exact h
      have hdiv : n / 16 < 16 ^ (k - 1) := by
        rw [Nat.div_lt_iff_lt_mul (by omega)]
        calc n < 16 ^ k := hlt
        _ = 16 ^ (k - 1) * 16 := by
            rw [← Nat.pow_succ]
            congr 1
            omega
      have := ih (n / 16) (Nat.div_lt_self (by omega) (by omega)) (k - 1) (by omega) hdiv
      simp only [List.length_append, List.length_singleton]
      omega

theorem parseHexAcc_append (xs ys : List Char) :
    ∀ acc, (∀ c ∈ xs, isHexDigitB c = true) →
      parseHexAcc acc (xs ++ ys) = parseHexAcc (parseHexAcc acc xs) ys := by
  induction xs with
  | nil => intro acc _; rfl
  | cons c xs ihx =>
    intro acc hall
    have hc : isHexDigitB c = true := hall c (by simp)
    simp only [List.cons_append, parseHexAcc, hc, if_true]
    exact ihx _ fun d hd => hall d (by simp [hd])

theorem parseHexAcc_hexChars (n : Nat) :
    ∀ acc : Int, parseHexAcc acc (hexChars n) =
      acc * 16 ^ (hexChars n).length + n := by
  induction n using Nat.strong_induction_on with
  | _ n ih =>
    intro acc
    rw [hexChars]
    split
    · rename_i h16
      simp only [parseHexAcc, isHexDigitB_hexDigitChar n h16, if_true,
        List.length_singleton, pow_one]
      rw [hexVal_hexDigitChar n h16]
    · rename_i h16
      rw [parseHexAcc_append _ _ acc (hexChars_all_hex (n / 16))]
      rw [ih (n / 16) (Nat.div_lt_self (by omega) (by omega)) acc]
      have hmod : n % 16 < 16 := Nat.mod_lt n (by omega)
      simp only [parseHexAcc, isHexDigitB_hexDigitChar (n % 16) hmod, if_true,
        List.length_append, List.length_singleton]
      rw [hexVal_hexDigitChar (n % 16) hmod]
      have hn : (n : Int) = (n / 16 : Nat) * 16 + (n % 16 : Nat) := by
        exact_mod_cast (Nat.div_add_mod n 16).symm.trans (by ring_nf)
      rw [hn]
      push_cast
      ring

/-- `strtol16` on a string that starts with neither a space nor a sign
goes straight to the unsigned base-16 parse. -/
theorem strtol16_plain (c : Char) (cs : List Char)
    (h1 : c ≠ ' ') (h2 : c ≠ '-') (h3 : c ≠ '+') :
    strtol16 (c :: cs) = strtol16Body (c :: cs) := by
  unfold strtol16
  rw [List.dropWhile_cons, if_neg (by simp [h1])]
  split
  · rename_i heq; rw [List.cons.injEq] at heq; exact absurd heq.1 h2
  · rename_i heq; rw [List.cons.injEq] at heq; exact absurd heq.1 h3
  · rfl

theorem strtol16_hexChars (n : Nat) :
    strtol16 ('0' :: 'x' :: hexChars n) = (n : Int) := by
  rcases hhx : hexChars n with _ | ⟨hc, hr⟩
  · exact absurd hhx (hexChars_ne_nil n)
  · have hch : isHexDigitB hc = true := hexChars_all_hex n hc (by rw [hhx]; simp)
    rw [strtol16_plain '0' ('x' :: hc :: hr) (by decide) (by decide) (by decide)]
    unfold strtol16Body
    split
    · rename_i x c r heq
      simp only [List.cons.injEq, true_and] at heq
      obtain ⟨rfl, rfl, rfl⟩ := heq
      rw [if_pos ⟨Or.inl rfl, hch⟩, ← hhx, parseHexAcc_hexChars n 0]
      simp
    · rename_i hno
      exact absurd rfl (hno 'x' hc hr)

theorem matchRule_hex (hx : List Char) (hne : hx ≠ [])
    (hall : ∀ c ∈ hx, isHexDigitB c = true) :
    matchRule ('0' :: 'x' :: hx) = some (TK_HEX_NUMBER, 2 + hx.length) := by
  have htw : hx.takeWhile isHexDigitB = hx := List.takeWhile_eq_self_iff.mpr hall
  simp only [matchRule]
  rw [if_neg (by decide), if_neg (by decide), if_neg (by decide), if_neg (by decide),
    if_neg (by decide), if_neg (by decide), if_neg (by decide), if_neg (by decide),
    if_neg (by decide)]
  simp [htw, hne, List.length_eq_zero]

theorem make_token_hexChars (n : Nat) (h2 : n < 2 ^ 31) :
    make_token ('0' :: 'x' :: hexChars n) =
      .ok [⟨TK_HEX_NUMBER, '0' :: 'x' :: hexChars n⟩] := by
  have hlen8 : (hexChars n).length ≤ 8 :=
    hexChars_length_le n 8 (by omega)
      (by calc n < 2 ^ 31 := h2
          _ < 16 ^ 8 := by norm_num)
  have hmr : matchRule ('0' :: 'x' :: hexChars n) =
      some (TK_HEX_NUMBER, 2 + (hexChars n).length) :=
    matchRule_hex (hexChars n) (hexChars_ne_nil n) (hexChars_all_hex n)
  rw [make_token]
  have hfuel : ('0' :: 'x' :: hexChars n).length + 1 =
      ((hexChars n).length + 2) + 1 := by
    simp only [List.length_cons]
  rw [hfuel, make_token_loop_literal ((hexChars n).length + 2) '0' ('x' :: hexChars n)
    0 [] TK_HEX_NUMBER (2 + (hexChars n).length) hmr (Or.inr (Or.inl rfl))
    (by simp) (by omega)]
  have hlenfull : 2 + (hexChars n).length = ('0' :: 'x' :: hexChars n).length := by
    simp only [List.length_cons]
    omega
  rw [hlenfull, List.drop_length, List.take_length]
  simp [make_token_loop]

theorem expr_hexChars (n : Nat) (h2 : n < 2 ^ 31) :
    expr ('0' :: 'x' :: hexChars n) = some (n : Int) := by
  unfold expr
  simp only [make_token_hexChars n h2, List.length_singleton, Nat.cast_one]
  have h := eval_single_hex 1 ('0' :: 'x' :: hexChars n)
  unfold evalV at h
  rw [show (1 : Int) - 1 = (0 : Int) by norm_num, h, strtol16_hexChars n]

/-- C6 counterexample: the decimal textual form of 0 is `"0"`, which no
lexer rule matches (`[1-9][0-9]*` excludes it and the hex rule needs an
`x`), so tokenization fails and evaluation cannot return 0. -/
theorem c6_zero_decimal_rejected_cex :
    decChars 0 = ['0'] ∧ make_token (decChars 0) = .noMatch 0 ∧
      expr (decChars 0) = none := by
  have h : decChars 0 = ['0'] := by rw [decChars]; rfl
  refine ⟨h, ?_, ?_⟩ <;> rw [h] <;> decide

/-- C6 (amended): tokenizing and evaluating the decimal textual form of
`n` succeeds and returns `n` for every `n` in `[1, 2^31)` — the decimal
form of 0 is rejected by the lexer, whose decimal rule is `[1-9][0-9]*`
— and tokenizing and evaluating the `0x`-prefixed hexadecimal textual
form of `n` succeeds and returns `n` for every `n` in `[0, 2^31)`. -/
theorem c6_literal_roundtrip : ∀ n : Nat, n < 2 ^ 31 →
    (1 ≤ n → expr (decChars n) = some (n : Int)) ∧
    expr ('0' :: 'x' :: hexChars n) = some (n : Int) :=
  fun n h2 => ⟨fun h1 => expr_decChars n h1 h2, expr_hexChars n h2⟩

/-- C6 witness: the round-trip at the concrete values 14 (decimal) and 0
(hexadecimal). -/
theorem c6_literal_roundtrip_witness :
    expr (decChars 14) = some 14 ∧ expr ('0' :: 'x' :: hexChars 0) = some 0 :=
  ⟨(c6_literal_roundtrip 14 (by norm_num)).1 (by norm_num),
    (c6_literal_roundtrip 0 (by norm_num)).2⟩

/-- C9 witness: the invariant at the concrete accepted input `"1"`. -/
theorem c9_range_invariant_witness :
    make_token ['1'] = .ok [⟨TK_NUMBER, ['1']⟩] ∧
    (expr_trace ['1']).head? = some (0, 0) ∧
    range_ok 1 (0, 0) := by
  have h := c9_range_invariant ['1'] [⟨TK_NUMBER, ['1']⟩] (by decide) (by decide)
  refine ⟨by decide, ?_, ?_⟩
  · simpa using h.1
  · simpa using h.2.1
